import Mathlib

/-!
Verification of the token-total BPE tokenizer core.

The development shallowly embeds `src/core/bpe.js` (the byte-pair merge
engine) and `src/core/encoding.js` (the `Encoding` tokenizer class) and
proves the behavioural claims about them.  JS byte arrays are `List Nat`,
JS strings are `List Char`, JS `Map`s are association lists with `Map.set`
semantics, and thrown JS errors are the `Except` monad with one error
constructor per failure condition of the code.
-/

namespace Tok

/-- A rank lookup, modelling `ranks.get(BytePairEncoder.bytesToKey(bs))`.
`bytesToKey` (base64) is injective, so the JS Map keyed by strings is
extensionally a partial function from byte sequences to ranks. -/
abbrev RankFn := List Nat → Option Nat

/-- JS `piece.slice(a, b)` on byte arrays (call sites have `a ≤ b ≤ len`). -/
def byteSlice (piece : List Nat) (a b : Nat) : List Nat :=
  (piece.drop a).take (b - a)

/-- The rank field of a part-list entry: a finite rank or JS `Infinity`. -/
inductive ERank where
  | fin : Nat → ERank
  | inf
deriving DecidableEq

/-- JS `<` on rank values, where `Infinity` compares greater than every
finite rank. -/
def eLt : ERank → ERank → Bool
  | .fin a, .fin b => decide (a < b)
  | .fin _, .inf => true
  | .inf, _ => false

/-- One entry of the working part list: the JS object `{pos, rank}`. -/
structure Part where
  pos : Nat
  rank : ERank
deriving DecidableEq

/-- Default used for out-of-range indexing (never relevant at call sites). -/
def dPart : Part := ⟨0, .inf⟩

/-- The tracked minimum: the JS object `{rank, index}`.  The code initializes
`index` to -1; that field is only read after a scan stored a finite rank
(which also stores a real index), so index is a `Nat` initialized to 0. -/
structure MinR where
  rank : ERank
  idx : Nat
deriving DecidableEq

/-- Left-to-right scan keeping the first strictly lower rank, the body shared
by the min-tracking loops of `_bytePairMerge`; `j` is the index of the head
of the remaining list and `acc` the minimum so far. -/
def scanAll : List Part → Nat → MinR → MinR
  | [], _, acc => acc
  | p :: rest, j, acc =>
      scanAll rest (j + 1) (if eLt p.rank acc.rank then ⟨p.rank, j⟩ else acc)

/-- The rescan at the end of each merge iteration runs
`for (j = 0; j < parts.length - 1; j++)`: it scans every entry but the
last one. -/
def findMin (parts : List Part) : MinR :=
  scanAll parts.dropLast 0 ⟨.inf, 0⟩

/-- Option-valued list indexing (JS `parts[i]` when in range). -/
def nth : List α → Nat → Option α
  | [], _ => none
  | a :: _, 0 => some a
  | _ :: l, n + 1 => nth l n

/-- Indexing the part list with the (never relevant) default. -/
def pget (parts : List Part) (j : Nat) : Part := (nth parts j).getD dPart

/-- In-place update `parts[k] = x` (the call sites always have k in range). -/
def setNth : List α → Nat → α → List α
  | [], _, _ => []
  | _ :: l, 0, x => x :: l
  | a :: l, n + 1, x => a :: setNth l n x

/-- JS `parts.splice(k, 1)`: remove the element at index k. -/
def delNth : List α → Nat → List α
  | [], _ => []
  | _ :: l, 0 => l
  | a :: l, n + 1 => a :: delNth l n

/-- `BytePairEncoder._getRank(ranks, piece, parts, i)`. -/
def getRank (ranks : RankFn) (piece : List Nat) (parts : List Part) (i : Nat) : ERank :=
  if parts.length ≤ i + 3 then .inf
  else
    match ranks (byteSlice piece (pget parts i).pos (pget parts (i + 3)).pos) with
    | some r => .fin r
    | none => .inf

/-- Diagnostic payload of the `BPE merge infinite loop detected!` error:
the iteration count, the cap, the piece length, the current tracked minimum,
the entry count and the first 10 entries of the current part list. -/
structure MergeErr where
  iterations : Nat
  maxIterations : Nat
  pieceLength : Nat
  minRank : MinR
  partsCount : Nat
  partsFirst10 : List Part
deriving DecidableEq

/-- Every error the embedded tokenizer core can raise, one constructor per
`throw` site, carrying the diagnostic data of the JS message. -/
inductive TokErr where
  | singleByteGap : Nat → TokErr
  | sliceGap : List Nat → Nat → Nat → Nat → TokErr
  | mergeOverflow : MergeErr → TokErr
  | disallowedSpecial : List Char → TokErr
  | unknownToken : List Char → TokErr
  | invalidTokenId : Nat → TokErr
  | invalidUtf8 : TokErr
deriving DecidableEq

/-- Lines 132-141 of `_bytePairMerge`: with i the tracked minimum's index,
update the rank at i-1 (when i > 0), update the rank at i (reading the list
produced by the first update; only ranks changed, so positions agree), then
splice out entry i+1. -/
def mergeStep (ranks : RankFn) (piece : List Nat) (parts : List Part) (i : Nat) :
    List Part :=
  let parts1 :=
    if 0 < i then
      setNth parts (i - 1) ⟨(pget parts (i - 1)).pos, getRank ranks piece parts (i - 1)⟩
    else parts
  let parts2 := setNth parts1 i ⟨(pget parts1 i).pos, getRank ranks piece parts1 i⟩
  delNth parts2 (i + 1)

/-- The while-loop of `_bytePairMerge`.  The explicit `fuel` equals
`maxIterations - iterations`, so the JS guard `++iterations > maxIterations`
fires exactly when fuel is 0; the result carries the final iteration count
(which the code logs on completion). -/
def mergeLoop (ranks : RankFn) (piece : List Nat) (maxIterations : Nat) :
    Nat → List Part → MinR → Nat → Except TokErr (List Part × Nat)
  | 0, parts, mr, iterations =>
    if mr.rank = .inf then .ok (parts, iterations)
    else .error (.mergeOverflow
        ⟨iterations + 1, maxIterations, piece.length, mr, parts.length, parts.take 10⟩)
  | fuel + 1, parts, mr, iterations =>
    if mr.rank = .inf then .ok (parts, iterations)
    else
      let parts2 := mergeStep ranks piece parts mr.idx
      mergeLoop ranks piece maxIterations fuel parts2 (findMin parts2) (iterations + 1)

/-- Rank of the 2-byte pair starting at byte index i, as computed by the
initialization loop of `_bytePairMerge`. -/
def pairRank (ranks : RankFn) (piece : List Nat) (i : Nat) : ERank :=
  match ranks (byteSlice piece i (i + 2)) with
  | some r => .fin r
  | none => .inf

/-- The pair entries pushed by the initialization loop (i = 0 .. len-2). -/
def pairParts (ranks : RankFn) (piece : List Nat) : List Part :=
  (List.range (piece.length - 1)).map fun i => ⟨i, pairRank ranks piece i⟩

/-- The initial part list: pair entries plus the sentinels
`{pos: len-1, rank: ∞}` and `{pos: len, rank: ∞}`.  (For the empty piece the
JS sentinel position `len-1` is -1; that position is never read.) -/
def initParts (ranks : RankFn) (piece : List Nat) : List Part :=
  pairParts ranks piece ++ [⟨piece.length - 1, .inf⟩, ⟨piece.length, .inf⟩]

/-- The minimum tracked by the initialization loop (it scans exactly the
pair entries, before the sentinels are pushed). -/
def initMin (ranks : RankFn) (piece : List Nat) : MinR :=
  scanAll (pairParts ranks piece) 0 ⟨.inf, 0⟩

/-- `BytePairEncoder._bytePairMerge(ranks, piece)`. -/
def bytePairMerge (ranks : RankFn) (piece : List Nat) :
    Except TokErr (List Part × Nat) :=
  mergeLoop ranks piece (piece.length * 2) (piece.length * 2)
    (initParts ranks piece) (initMin ranks piece) 0

/-- Lines 48-68 of `BytePairEncoder.encode`: look every adjacent boundary
slice up in the rank table, in order, failing at the first slice that is
missing from the vocabulary. -/
def partsToTokens (ranks : RankFn) (piece : List Nat) :
    List Part → Except TokErr (List Nat)
  | [] => .ok []
  | [_] => .ok []
  | p :: q :: rest => do
      let s := byteSlice piece p.pos q.pos
      match ranks s with
      | some t => do
          let ts ← partsToTokens ranks piece (q :: rest)
          .ok (t :: ts)
      | none => .error (.sliceGap s p.pos q.pos piece.length)

/-- `BytePairEncoder.encode(ranks, piece)`. -/
def bpeEncode (ranks : RankFn) (piece : List Nat) : Except TokErr (List Nat) :=
  if piece.length = 1 then
    match ranks piece with
    | some t => .ok [t]
    | none => .error (.singleByteGap (piece.headD 0))
  else do
    let pr ← bytePairMerge ranks piece
    partsToTokens ranks piece pr.1

/-! Spec-side rendering of the merge loop, used by the refinement claim C1.
These definitions follow the wording of spec.md §4.1 (steps 1-4), not the
code. -/

/-- Modelled from the spec (§4.1 step 1): one pair-rank entry per byte index
at which a 2-byte pair starts, unranked pairs getting infinite rank, plus two
infinite-rank sentinel entries at len-1 and len. -/
def initPartsSpec (ranks : RankFn) (piece : List Nat) : List Part :=
  ((List.range (piece.length - 1)).map fun i =>
    ⟨i, match ranks (byteSlice piece i (i + 2)) with
        | some r => ERank.fin r
        | none => ERank.inf⟩) ++
    [⟨piece.length - 1, .inf⟩, ⟨piece.length, .inf⟩]

/-- Modelled from the spec (§4.1 steps b-c): the recomputed rank of boundary
i is the rank of the byte slice spanning from boundary i to the boundary
three positions ahead in the current list, infinite when there is no
boundary three positions ahead. -/
def spanRankSpec (ranks : RankFn) (piece : List Nat) (parts : List Part) (i : Nat) :
    ERank :=
  match nth parts (i + 3) with
  | none => .inf
  | some q =>
      match ranks (byteSlice piece (pget parts i).pos q.pos) with
      | some r => .fin r
      | none => .inf

/-- Modelled from the spec (§4.1 step 2): the globally minimal rank with ties
broken by earliest position — scan the whole list left to right and keep the
first strictly lower rank found. -/
def findMinSpec (parts : List Part) : MinR := scanAll parts 0 ⟨.inf, 0⟩

/-- Modelled from the spec (§4.1 steps a-d): with i the minimum's position,
recompute the rank of the boundary immediately before i (if any), recompute
the rank of boundary i the same way, then remove the boundary immediately
after i. -/
def stepSpec (ranks : RankFn) (piece : List Nat) (parts : List Part) (i : Nat) :
    List Part :=
  let parts1 :=
    if 0 < i then
      setNth parts (i - 1) ⟨(pget parts (i - 1)).pos, spanRankSpec ranks piece parts (i - 1)⟩
    else parts
  let parts2 := setNth parts1 i ⟨(pget parts1 i).pos, spanRankSpec ranks piece parts1 i⟩
  delNth parts2 (i + 1)

/-- Modelled from the spec (§4.1 steps 3-4): while the minimum rank is
finite, merge at the minimum and rescan; terminate when no finite rank
remains.  Written with explicit fuel; the C1 refinement theorem shows fuel
`piece.length` is never exhausted, so this agrees with the unbounded loop. -/
def mergeLoopSpec (ranks : RankFn) (piece : List Nat) : Nat → List Part → List Part
  | 0, parts => parts
  | fuel + 1, parts =>
      let mr := findMinSpec parts
      if mr.rank = .inf then parts
      else mergeLoopSpec ranks piece fuel (stepSpec ranks piece parts mr.idx)

/-- Modelled from the spec (§4.1): the full merge loop, initialization
included, returning the final segment boundaries. -/
def bytePairMergeSpec (ranks : RankFn) (piece : List Nat) : List Part :=
  mergeLoopSpec ranks piece piece.length (initPartsSpec ranks piece)

/-! UTF-8.  `TextEncoder` / `TextDecoder` are host primitives, embedded here
per the standards they implement (RFC 3629 and the WHATWG encoding
standard). -/

/-- Modelled from the platform: UTF-8 encoding of one Unicode scalar value. -/
def utf8Nat (n : Nat) : List Nat :=
  if n < 0x80 then [n]
  else if n < 0x800 then [0xC0 + n / 64, 0x80 + n % 64]
  else if n < 0x10000 then [0xE0 + n / 4096, 0x80 + (n / 64) % 64, 0x80 + n % 64]
  else [0xF0 + n / 262144, 0x80 + (n / 4096) % 64, 0x80 + (n / 64) % 64, 0x80 + n % 64]

/-- Modelled from the platform: `new TextEncoder().encode(s)`. -/
def utf8Encode (s : List Char) : List Nat :=
  s.flatMap fun c => utf8Nat c.toNat

/-- Modelled from the platform (WHATWG UTF-8 decoder): decode one unit from
the byte stream, returning the scalar value (none on error) and the number
of bytes consumed — on error, the maximal subpart of the ill-formed
sequence, as the standard prescribes. -/
def utf8Step : List Nat → Option Nat × Nat
  | [] => (none, 1)
  | b0 :: rest =>
    if b0 ≤ 0x7F then (some b0, 1)
    else if 0xC2 ≤ b0 ∧ b0 ≤ 0xDF then
      match nth rest 0 with
      | some b1 =>
          if 0x80 ≤ b1 ∧ b1 ≤ 0xBF then (some ((b0 - 0xC0) * 64 + (b1 - 0x80)), 2)
          else (none, 1)
      | none => (none, 1)
    else if 0xE0 ≤ b0 ∧ b0 ≤ 0xEF then
      match nth rest 0 with
      | some b1 =>
          if (if b0 = 0xE0 then 0xA0 else 0x80) ≤ b1 ∧
              b1 ≤ (if b0 = 0xED then 0x9F else 0xBF) then
            match nth rest 1 with
            | some b2 =>
                if 0x80 ≤ b2 ∧ b2 ≤ 0xBF then
                  (some ((b0 - 0xE0) * 4096 + (b1 - 0x80) * 64 + (b2 - 0x80)), 3)
                else (none, 2)
            | none => (none, 2)
          else (none, 1)
      | none => (none, 1)
    else if 0xF0 ≤ b0 ∧ b0 ≤ 0xF4 then
      match nth rest 0 with
      | some b1 =>
          if (if b0 = 0xF0 then 0x90 else 0x80) ≤ b1 ∧
              b1 ≤ (if b0 = 0xF4 then 0x8F else 0xBF) then
            match nth rest 1 with
            | some b2 =>
                if 0x80 ≤ b2 ∧ b2 ≤ 0xBF then
                  match nth rest 2 with
                  | some b3 =>
                      if 0x80 ≤ b3 ∧ b3 ≤ 0xBF then
                        (some ((b0 - 0xF0) * 262144 + (b1 - 0x80) * 4096 +
                          (b2 - 0x80) * 64 + (b3 - 0x80)), 4)
                      else (none, 3)
                  | none => (none, 3)
                else (none, 2)
            | none => (none, 2)
          else (none, 1)
      | none => (none, 1)
    else (none, 1)

/-- Modelled from the platform: TextDecoder with fatal false replaces every
malformed subsequence by U+FFFD.  Fuel-driven; `utf8Step` consumes at least
one byte per unit, so fuel `bs.length` always suffices. -/
def utf8ReplGo : Nat → List Nat → List Char
  | 0, _ => []
  | _ + 1, [] => []
  | fuel + 1, b :: bs =>
      let r := utf8Step (b :: bs)
      (match r.1 with
       | some n => Char.ofNat n
       | none => Char.ofNat 0xFFFD) :: utf8ReplGo fuel ((b :: bs).drop r.2)

/-- Modelled from the platform: non-fatal UTF-8 decoding of a whole stream. -/
def utf8Repl (bs : List Nat) : List Char := utf8ReplGo bs.length bs

/-- Modelled from the platform: TextDecoder with fatal true fails on any
malformed sequence. -/
def utf8StrictGo : Nat → List Nat → Option (List Char)
  | 0, [] => some []
  | 0, _ :: _ => none
  | _ + 1, [] => some []
  | fuel + 1, b :: bs =>
      match utf8Step (b :: bs) with
      | (some n, k) =>
          match utf8StrictGo fuel ((b :: bs).drop k) with
          | some cs => some (Char.ofNat n :: cs)
          | none => none
      | (none, _) => none

/-- Modelled from the platform: fatal UTF-8 decoding of a whole stream. -/
def utf8Strict (bs : List Nat) : Option (List Char) := utf8StrictGo bs.length bs

/-! JS `Map` as an association list. -/

/-- JS Map lookup. -/
def mapGet [DecidableEq α] (m : List (α × β)) (k : α) : Option β :=
  match m with
  | [] => none
  | e :: rest => if e.1 = k then some e.2 else mapGet rest k

/-- JS `Map.set`: replace in place when the key exists, else append. -/
def mapSet [DecidableEq α] (m : List (α × β)) (k : α) (v : β) : List (α × β) :=
  match m with
  | [] => [(k, v)]
  | e :: rest => if e.1 = k then (k, v) :: rest else e :: mapSet rest k v

/-! The `Encoding` class of encoding.js. -/

/-- The piece split performed by `text.match(this._pattern)`.  The
pre-tokenization pattern is external input to the core (spec §2, §6), so the
Encoding is parameterized by the resulting matcher; `[]` models a null
match result. -/
abbrev Splitter := List Char → List (List Char)

/-- The constructed tokenizer state (fields of an `Encoding` instance). -/
structure Encoding where
  splitter : Splitter
  mergeableRanks : List (List Nat × Nat)
  specialTokens : List (List Char × Nat)
  decoder : List (Nat × List Nat)
  specialDecoder : List (Nat × List Nat)
  maxTokenValue : Int

/-- Rank-table lookup `this._mergeableRanks.get(bytesToKey(bs))`. -/
def ranksGet (entries : List (List Nat × Nat)) : RankFn := fun bs => mapGet entries bs

/-- The Encoding constructor (lines 18-61 of encoding.js): build the two
decode tables and the max token value.  There is no duplicate-rank check:
`this._decoder.set(rank, bytes)` silently overwrites, so of two byte
sequences sharing a rank the later one wins. -/
def mkEncoding (splitter : Splitter) (mergeableRanks : List (List Nat × Nat))
    (specialTokens : List (List Char × Nat)) : Encoding :=
  { splitter := splitter
    mergeableRanks := mergeableRanks
    specialTokens := specialTokens
    decoder := mergeableRanks.foldl (fun m e => mapSet m e.2 e.1) []
    specialDecoder := specialTokens.foldl (fun m e => mapSet m e.2 (utf8Encode e.1)) []
    maxTokenValue :=
      max (mergeableRanks.foldl (fun a e => max a (e.2 : Int)) (-1))
          (specialTokens.foldl (fun a e => max a (e.2 : Int)) (-1)) }

/-- Error-propagating map (the JS pattern of pushing into an array inside a
loop whose body may throw). -/
def mapME (f : α → Except TokErr β) : List α → Except TokErr (List β)
  | [] => .ok []
  | a :: l => do
      let b ← f a
      let bs ← mapME f l
      .ok (b :: bs)

/-- The per-piece body of `encodeOrdinary`: UTF-8 encode the piece, try the
whole-piece fast path, else run BPE. -/
def encodePiece (enc : Encoding) (piece : List Char) : Except TokErr (List Nat) :=
  let bytes := utf8Encode piece
  match ranksGet enc.mergeableRanks bytes with
  | some t => .ok [t]
  | none => bpeEncode (ranksGet enc.mergeableRanks) bytes

/-- `Encoding.encodeOrdinary(text)`. -/
def encodeOrdinary (enc : Encoding) (text : List Char) : Except TokErr (List Nat) :=
  if text = [] then .ok []
  else
    let pieces := enc.splitter text
    if pieces = [] then .ok []
    else do
      let ts ← mapME (encodePiece enc) pieces
      .ok ts.flatten

/-- An `allowedSpecial` / `disallowedSpecial` option value: a set of literal
strings or the sentinel 'all' (the tagged variant of spec §9). -/
inductive SpecOpt where
  | all
  | set : List (List Char) → SpecOpt
deriving DecidableEq

/-- Set membership `o.has(t)` (only called on set-valued options). -/
def optHas (o : SpecOpt) (t : List Char) : Bool :=
  match o with
  | .all => false
  | .set l => decide (t ∈ l)

/-- Bool prefix test on lists. -/
def leadsWith [DecidableEq α] : List α → List α → Bool
  | [], _ => true
  | _ :: _, [] => false
  | a :: l, b :: m => if a = b then leadsWith l m else false

/-- JS `text.includes(t)`: t occurs as a contiguous subsequence. -/
def containsSeq [DecidableEq α] (t text : List α) : Bool :=
  (List.range (text.length + 1)).any fun p => leadsWith t (text.drop p)

/-- Lines 126-138 of `encode`: the effective disallowed set.  With the 'all'
sentinel it is every registered special token not in `allowed` (empty when
`allowed` is itself 'all'); an explicit set is taken as given. -/
def effectiveDisallowed (specialKeys : List (List Char))
    (allowed disallowed : SpecOpt) : List (List Char) :=
  match disallowed with
  | .all => specialKeys.filter fun t => !(decide (allowed = SpecOpt.all)) && !(optHas allowed t)
  | .set s => s

/-- The special-token scan `[...text.matchAll(this._specialPattern)]`: at
each position the alternation matches the first registered key (in
`Object.keys` order) starting there, and the global regex continues past the
match.  Fuel-driven on the remaining text; an empty key (never registered in
practice) ends the scan instead of looping. -/
def scanSpecialGo (keys : List (List Char)) :
    Nat → Nat → List Char → List (Nat × List Char)
  | 0, _, _ => []
  | _ + 1, _, [] => []
  | fuel + 1, pos, c :: rem =>
      match keys.find? (fun k => leadsWith k (c :: rem)) with
      | some k =>
          if k = [] then []
          else (pos, k) :: scanSpecialGo keys fuel (pos + k.length) ((c :: rem).drop k.length)
      | none => scanSpecialGo keys fuel (pos + 1) rem

/-- All special-token matches of `text`, leftmost first. -/
def scanSpecial (keys : List (List Char)) (text : List Char) : List (Nat × List Char) :=
  scanSpecialGo keys text.length 0 text

/-- JS `text.slice(a, b)` on strings. -/
def charSlice (text : List Char) (a b : Nat) : List Char :=
  (text.drop a).take (b - a)

/-- Lines 165-187 of `encode`: walk the special-token matches, excising the
allowed ones and ordinarily encoding the text in between.  Returns the
tokens plus the final `lastEnd`.  (`mapGet … |>.getD 0` reads
`this._specialTokens[tok]`, always present because tok came from the key
scan.) -/
def encodeSweep (enc : Encoding) (text : List Char) (allowed : SpecOpt) :
    List (Nat × List Char) → Nat → Except TokErr (List Nat × Nat)
  | [], lastEnd => .ok ([], lastEnd)
  | (idx, tok) :: rest, lastEnd =>
      if allowed = .all ∨ optHas allowed tok then do
        let pre ← if lastEnd < idx then encodeOrdinary enc (charSlice text lastEnd idx)
                  else .ok []
        let r ← encodeSweep enc text allowed rest (idx + tok.length)
        .ok (pre ++ (mapGet enc.specialTokens tok).getD 0 :: r.1, r.2)
      else encodeSweep enc text allowed rest lastEnd

/-- `Encoding.encode(text, options)`.  The two arguments model the option
fields, `none` when omitted: `options.allowedSpecial || new Set()` defaults
to the empty set, and `disallowedSpecial === undefined` defaults to 'all'. -/
def encode (enc : Encoding) (text : List Char)
    (allowedArg disallowedArg : Option SpecOpt) : Except TokErr (List Nat) :=
  if text = [] then .ok []
  else
    match (effectiveDisallowed (enc.specialTokens.map Prod.fst)
        (allowedArg.getD (.set [])) (disallowedArg.getD .all)).find?
        (fun t => containsSeq t text) with
    | some t => .error (.disallowedSpecial t)
    | none =>
      if allowedArg.getD (.set []) = SpecOpt.set [] then encodeOrdinary enc text
      else if enc.specialTokens = [] then encodeOrdinary enc text
      else do
        let r ← encodeSweep enc text (allowedArg.getD (.set []))
          (scanSpecial (enc.specialTokens.map Prod.fst) text) 0
        let tail ← if r.2 < text.length then encodeOrdinary enc (text.drop r.2)
                   else .ok []
        .ok (r.1 ++ tail)

/-- The `string | Uint8Array` input of `encodeSingleToken`. -/
inductive StrOrBytes where
  | str : List Char → StrOrBytes
  | bytes : List Nat → StrOrBytes

/-- `Encoding.encodeSingleToken(textOrBytes)`: special-token table first for
strings, then an exact rank-table hit; no BPE merging is run.  (The JS error
message renders byte input with a default TextDecoder, hence `utf8Repl`.) -/
def encodeSingleToken (enc : Encoding) : StrOrBytes → Except TokErr Nat
  | .str s =>
      match mapGet enc.specialTokens s with
      | some id => .ok id
      | none =>
          match ranksGet enc.mergeableRanks (utf8Encode s) with
          | some t => .ok t
          | none => .error (.unknownToken s)
  | .bytes b =>
      match ranksGet enc.mergeableRanks b with
      | some t => .ok t
      | none => .error (.unknownToken (utf8Repl b))

/-- The loop body of `decodeBytes`: `this._decoder.get(token) ||
this._specialTokensDecoder.get(token)`, throwing on an unknown id. -/
def decodeOne (enc : Encoding) (t : Nat) : Except TokErr (List Nat) :=
  match mapGet enc.decoder t with
  | some bs => Except.ok bs
  | none =>
      match mapGet enc.specialDecoder t with
      | some bs => Except.ok bs
      | none => Except.error (.invalidTokenId t)

/-- `Encoding.decodeBytes(tokens)`: per-token lookup in the ordinary decode
table with fallback to the special decode table, then concatenation. -/
def decodeBytes (enc : Encoding) (tokens : List Nat) : Except TokErr (List Nat) := do
  let arrs ← mapME (decodeOne enc) tokens
  .ok arrs.flatten

/-- The `errors` argument of `Encoding.decode`. -/
inductive ErrPolicy where
  | strict
  | replace
  | ignore
deriving DecidableEq

/-- `Encoding.decode(tokens, errors)`.  The TextDecoder is constructed fatal
only under 'strict'; under 'replace' and 'ignore' it never throws and
substitutes U+FFFD, so the JS catch-branch for 'ignore' (which would
re-decode with the same decoder) is unreachable and 'ignore' behaves
exactly like 'replace'. -/
def decode (enc : Encoding) (tokens : List Nat) (errors : ErrPolicy) :
    Except TokErr (List Char) := do
  let bs ← decodeBytes enc tokens
  if errors = .strict then
    match utf8Strict bs with
    | some cs => .ok cs
    | none => .error .invalidUtf8
  else .ok (utf8Repl bs)

/-! Basic facts about the list primitives. -/

lemma nth_len_le (l : List α) (n : Nat) (h : l.length ≤ n) : nth l n = none := by
  induction l generalizing n with
  | nil => cases n <;> rfl
  | cons a l ih =>
    cases n with
    | zero => simp at h
    | succ n => exact ih n (by simpa using h)

lemma nth_lt (l : List α) (n : Nat) (h : n < l.length) : ∃ a, nth l n = some a := by
  induction l generalizing n with
  | nil => simp at h
  | cons a l ih =>
    cases n with
    | zero => exact ⟨a, rfl⟩
    | succ n => exact ih n (by simpa using h)

lemma nth_mem (l : List α) (n : Nat) (a : α) (h : nth l n = some a) : a ∈ l := by
  induction l generalizing n with
  | nil => simp [nth] at h
  | cons b l ih =>
    cases n with
    | zero => simp [nth] at h; simp [h]
    | succ n => exact List.mem_cons_of_mem _ (ih n h)

lemma nth_append (l m : List α) (n : Nat) :
    nth (l ++ m) n = if n < l.length then nth l n else nth m (n - l.length) := by
  induction l generalizing n with
  | nil => simp [nth]
  | cons a l ih =>
    cases n with
    | zero => simp [nth]
    | succ n => simpa [nth, Nat.succ_lt_succ_iff] using ih n

lemma nth_map (f : α → β) (l : List α) (n : Nat) :
    nth (l.map f) n = (nth l n).map f := by
  induction l generalizing n with
  | nil => simp [nth]
  | cons a l ih => cases n <;> simp [nth, ih]

lemma nth_range (m n : Nat) :
    nth (List.range m) n = if n < m then some n else none := by
  induction m with
  | zero => simp [nth_len_le]
  | succ m ih =>
    rw [List.range_succ, nth_append]
    by_cases h : n < m
    · simp [h, ih, Nat.lt_succ_of_lt h]
    · have : (List.range m).length = m := List.length_range m
      rcases Nat.lt_or_ge n (m + 1) with h2 | h2
      · have hnm : n = m := by omega
        simp [this, h, hnm, nth]
      · have hge : 1 ≤ n - m := by omega
        simp [this, h, show ¬ n < m + 1 by omega, nth_len_le [m] (n - m) (by simpa using hge)]

lemma length_setNth (l : List α) (k : Nat) (x : α) : (setNth l k x).length = l.length := by
  induction l generalizing k with
  | nil => rfl
  | cons a l ih => cases k <;> simp [setNth, ih]

lemma nth_setNth (l : List α) (k : Nat) (x : α) (j : Nat) :
    nth (setNth l k x) j = if j = k ∧ k < l.length then some x else nth l j := by
  induction l generalizing k j with
  | nil => simp [setNth, nth]
  | cons a l ih =>
    cases k with
    | zero =>
      cases j with
      | zero => simp [setNth, nth]
      | succ j => simp [setNth, nth]
    | succ k =>
      cases j with
      | zero => simp [setNth, nth]
      | succ j => simpa [setNth, nth, Nat.succ_lt_succ_iff] using ih k j

lemma length_delNth (l : List α) (k : Nat) (h : k < l.length) :
    (delNth l k).length = l.length - 1 := by
  induction l generalizing k with
  | nil => simp at h
  | cons a l ih =>
    cases k with
    | zero => simp [delNth]
    | succ k =>
      have := ih k (by simpa using h)
      have hl : 1 ≤ l.length := by simp at h; omega
      simp [delNth, this]
      omega

lemma nth_delNth (l : List α) (k j : Nat) (h : k < l.length) :
    nth (delNth l k) j = if j < k then nth l j else nth l (j + 1) := by
  induction l generalizing k j with
  | nil => simp at h
  | cons a l ih =>
    cases k with
    | zero => simp [delNth, nth]
    | succ k =>
      cases j with
      | zero => simp [delNth, nth]
      | succ j => simpa [delNth, nth, Nat.succ_lt_succ_iff] using ih k j (by simpa using h)

lemma nth_dropLast (l : List α) (j : Nat) (h : j + 1 < l.length) :
    nth l.dropLast j = nth l j := by
  induction l generalizing j with
  | nil => simp at h
  | cons a l ih =>
    cases l with
    | nil => simp at h
    | cons b l =>
      cases j with
      | zero => simp [nth]
      | succ j =>
        have := ih j (by simpa using h)
        simpa [nth] using this

lemma eLt_trans {a b c : ERank} (h1 : eLt a b = true) (h2 : eLt b c = true) :
    eLt a c = true := by
  cases a <;> cases b <;> cases c <;> (simp_all [eLt]; try omega)

lemma eLt_inf (r : ERank) : eLt .inf r = false := rfl

lemma scanAll_spec (l : List Part) (j : Nat) (acc : MinR) :
    scanAll l j acc = acc ∨
    ∃ k p, k < l.length ∧ (scanAll l j acc).idx = j + k ∧
      nth l k = some p ∧ p.rank = (scanAll l j acc).rank ∧
      eLt (scanAll l j acc).rank acc.rank = true := by
  induction l generalizing j acc with
  | nil => left; rfl
  | cons p rest ih =>
    simp only [scanAll]
    by_cases h : eLt p.rank acc.rank = true
    · rw [if_pos h]
      rcases ih (j + 1) ⟨p.rank, j⟩ with h2 | ⟨k, q, hk, hidx, hnth, hrank, hlt⟩
      · right
        refine ⟨0, p, by simp, ?_, rfl, ?_, ?_⟩
        · rw [h2]; simp
        · rw [h2]
        · rw [h2]; exact h
      · right
        exact ⟨k + 1, q, by simpa using hk, by omega, hnth, hrank, eLt_trans hlt h⟩
    · rw [if_neg h]
      rcases ih (j + 1) acc with h2 | ⟨k, q, hk, hidx, hnth, hrank, hlt⟩
      · left; exact h2
      · right
        exact ⟨k + 1, q, by simpa using hk, by omega, hnth, hrank, hlt⟩

lemma findMin_finite (parts : List Part)
    (h : (findMin parts).rank ≠ .inf) :
    (findMin parts).idx + 1 < parts.length ∧
    ∃ p, nth parts (findMin parts).idx = some p ∧ p.rank = (findMin parts).rank := by
  rcases scanAll_spec parts.dropLast 0 ⟨.inf, 0⟩ with h2 | ⟨k, p, hk, hidx, hnth, hrank, _⟩
  · exact absurd (by rw [findMin, h2]) h
  · have hlen : parts.dropLast.length = parts.length - 1 := List.length_dropLast parts
    have hkl : k + 1 < parts.length := by omega
    have hidx0 : (findMin parts).idx = k := by simpa [findMin] using hidx
    refine ⟨by omega, p, ?_, by simpa [findMin] using hrank⟩
    rw [hidx0, ← nth_dropLast parts k (by omega)]
    exact hnth

lemma scanAll_append_inf (l : List Part) (a : Part) (ha : a.rank = .inf) (j : Nat)
    (acc : MinR) : scanAll (l ++ [a]) j acc = scanAll l j acc := by
  induction l generalizing j acc with
  | nil => simp [scanAll, ha, eLt_inf]
  | cons p rest ih => simp [scanAll, ih]

lemma findMin_initParts (ranks : RankFn) (piece : List Nat) :
    findMin (initParts ranks piece) = initMin ranks piece := by
  have h1 : initParts ranks piece =
      (pairParts ranks piece ++ [⟨piece.length - 1, .inf⟩]) ++ [⟨piece.length, .inf⟩] := by
    simp [initParts]
  rw [findMin, h1, List.dropLast_concat, scanAll_append_inf _ _ rfl, initMin]

/-! The sentinel invariant and the step lemmas of the merge loop. -/

/-- Every entry among the last two of the part list has infinite rank. -/
def SentInv (parts : List Part) : Prop :=
  ∀ j p, parts.length ≤ j + 2 → nth parts j = some p → p.rank = .inf

lemma length_pairParts (ranks : RankFn) (piece : List Nat) :
    (pairParts ranks piece).length = piece.length - 1 := by
  simp [pairParts]

lemma length_initParts (ranks : RankFn) (piece : List Nat) :
    (initParts ranks piece).length = (piece.length - 1) + 2 := by
  simp [initParts, length_pairParts]

lemma sentInv_initParts (ranks : RankFn) (piece : List Nat) :
    SentInv (initParts ranks piece) := by
  intro j p hj hp
  rw [initParts, nth_append] at hp
  have hl := length_pairParts ranks piece
  rw [length_initParts] at hj
  have hge : ¬ j < (pairParts ranks piece).length := by omega
  rw [if_neg hge] at hp
  rcases Nat.lt_or_ge (j - (pairParts ranks piece).length) 2 with h2 | h2
  · have h0 : j - (pairParts ranks piece).length = 0 ∨
        j - (pairParts ranks piece).length = 1 := by omega
    rcases h0 with h0 | h0
    · rw [h0] at hp
      have h5 : some (⟨piece.length - 1, ERank.inf⟩ : Part) = some p := hp
      cases h5
      rfl
    · rw [h0] at hp
      have h5 : some (⟨piece.length, ERank.inf⟩ : Part) = some p := hp
      cases h5
      rfl
  · rw [nth_len_le _ _ (by simpa using h2)] at hp
    cases hp

lemma length_mergeStep (ranks : RankFn) (piece : List Nat) (parts : List Part)
    (i : Nat) (h : i + 1 < parts.length) :
    (mergeStep ranks piece parts i).length = parts.length - 1 := by
  have h1 : ∀ q : List Part, q.length = parts.length →
      (setNth q i ⟨(pget q i).pos, getRank ranks piece q i⟩).length = parts.length := by
    intro q hq; rw [length_setNth, hq]
  rw [mergeStep]
  by_cases hi : 0 < i
  · rw [if_pos hi]
    rw [length_delNth _ _ (by rw [h1 _ (length_setNth _ _ _)]; exact h),
      h1 _ (length_setNth _ _ _)]
  · rw [if_neg hi]
    rw [length_delNth _ _ (by rw [h1 _ rfl]; exact h), h1 _ rfl]

lemma pos_setNth_rank (parts : List Part) (k : Nat) (r : ERank) (j : Nat) :
    (pget (setNth parts k ⟨(pget parts k).pos, r⟩) j).pos = (pget parts j).pos := by
  rw [pget, nth_setNth]
  by_cases h : j = k ∧ k < parts.length
  · rw [if_pos h, pget]
    rcases h with ⟨h1, h2⟩
    subst h1
    rfl
  · rw [if_neg h, pget]

lemma getRank_congr (ranks : RankFn) (piece : List Nat) (p1 p2 : List Part) (i : Nat)
    (hl : p1.length = p2.length)
    (hp : ∀ k, (pget p1 k).pos = (pget p2 k).pos) :
    getRank ranks piece p1 i = getRank ranks piece p2 i := by
  rw [getRank, getRank, hl, hp, hp]

/-- Positions are untouched by the two rank updates of a merge step. -/
lemma mergeStep_parts1_pos (ranks : RankFn) (piece : List Nat) (parts : List Part)
    (i : Nat) :
    ∀ j, (pget (if 0 < i then
        setNth parts (i - 1) ⟨(pget parts (i - 1)).pos, getRank ranks piece parts (i - 1)⟩
      else parts) j).pos = (pget parts j).pos := by
  intro j
  by_cases hi : 0 < i
  · rw [if_pos hi]; exact pos_setNth_rank parts (i - 1) _ j
  · rw [if_neg hi]

lemma sentInv_mergeStep (ranks : RankFn) (piece : List Nat) (parts : List Part)
    (i : Nat) (hs : SentInv parts) (h3 : i + 3 ≤ parts.length) :
    SentInv (mergeStep ranks piece parts i) := by
  intro j p hj hp
  have hlen := length_mergeStep ranks piece parts i (by omega)
  rw [hlen] at hj
  rw [mergeStep] at hp
  set parts1 := (if 0 < i then
      setNth parts (i - 1) ⟨(pget parts (i - 1)).pos, getRank ranks piece parts (i - 1)⟩
    else parts) with hparts1
  have hl1 : parts1.length = parts.length := by
    rw [hparts1]
    by_cases hi : 0 < i
    · rw [if_pos hi, length_setNth]
    · rw [if_neg hi]
  set parts2 := setNth parts1 i ⟨(pget parts1 i).pos, getRank ranks piece parts1 i⟩
    with hparts2
  have hl2 : parts2.length = parts.length := by rw [hparts2, length_setNth, hl1]
  rw [nth_delNth _ _ _ (by omega)] at hp
  by_cases hji : j < i + 1
  · rw [if_pos hji] at hp
    have hji2 : j = i := by omega
    subst hji2
    rw [hparts2, nth_setNth, if_pos ⟨rfl, by omega⟩] at hp
    have : getRank ranks piece parts1 j = .inf := by
      rw [getRank, if_pos (by omega)]
    injection hp with hp2
    rw [← hp2]
    simpa using this
  · rw [if_neg hji] at hp
    have hj1 : ¬ (j + 1 = i ∧ i < parts1.length) := by omega
    rw [hparts2, nth_setNth, if_neg hj1] at hp
    have hj2 : nth parts1 (j + 1) = nth parts (j + 1) := by
      rw [hparts1]
      by_cases hi : 0 < i
      · rw [if_pos hi, nth_setNth, if_neg (by omega)]
      · rw [if_neg hi]
    rw [hj2] at hp
    exact hs (j + 1) p (by omega) hp

/-- The main loop lemma: started on a part list satisfying the sentinel
invariant with enough fuel, the loop returns ok, removing exactly one entry
per iteration and never shrinking the list below the two sentinels. -/
lemma mergeLoop_ok (ranks : RankFn) (piece : List Nat) (maxIter : Nat) :
    ∀ fuel parts iterations,
      SentInv parts → 2 ≤ parts.length → parts.length ≤ fuel + 2 →
      ∃ res its,
        mergeLoop ranks piece maxIter fuel parts (findMin parts) iterations =
          .ok (res, its) ∧
        its + res.length = iterations + parts.length ∧ iterations ≤ its ∧
        2 ≤ res.length ∧ SentInv res ∧ (findMin res).rank = .inf := by
  intro fuel
  induction fuel with
  | zero =>
    intro parts iterations hs h2 hf
    by_cases hm : (findMin parts).rank = .inf
    · refine ⟨parts, iterations, ?_, by omega, Nat.le_refl _, h2, hs, hm⟩
      rw [mergeLoop, if_pos hm]
    · rcases findMin_finite parts hm with ⟨hidx, p, hp, hpr⟩
      have : p.rank = .inf := hs _ p (by omega) hp
      rw [this] at hpr
      exact absurd hpr.symm hm
  | succ fuel ih =>
    intro parts iterations hs h2 hf
    by_cases hm : (findMin parts).rank = .inf
    · refine ⟨parts, iterations, ?_, by omega, Nat.le_refl _, h2, hs, hm⟩
      rw [mergeLoop, if_pos hm]
    · rcases findMin_finite parts hm with ⟨hidx, p, hp, hpr⟩
      have h3 : (findMin parts).idx + 3 ≤ parts.length := by
        by_contra hcon
        have : p.rank = .inf := hs _ p (by omega) hp
        rw [this] at hpr
        exact hm hpr.symm
      have hstep := sentInv_mergeStep ranks piece parts (findMin parts).idx hs h3
      have hlen := length_mergeStep ranks piece parts (findMin parts).idx (by omega)
      rcases ih (mergeStep ranks piece parts (findMin parts).idx) (iterations + 1)
          hstep (by omega) (by omega) with
        ⟨res, its, heq, hsum, hle, hres2, hressent, hresmin⟩
      refine ⟨res, its, ?_, by omega, by omega, hres2, hressent, hresmin⟩
      rw [mergeLoop, if_neg hm]
      exact heq

/-- `_bytePairMerge` always returns ok, with the final part list and the
iteration count accounted against the initial list. -/
lemma bytePairMerge_ok (ranks : RankFn) (piece : List Nat) :
    ∃ res its, bytePairMerge ranks piece = .ok (res, its) ∧
      its + res.length = (piece.length - 1) + 2 ∧ 2 ≤ res.length ∧
      SentInv res ∧ (findMin res).rank = .inf := by
  have h := mergeLoop_ok ranks piece (piece.length * 2) (piece.length * 2)
    (initParts ranks piece) 0 (sentInv_initParts ranks piece)
    (by rw [length_initParts]; omega)
    (by rw [length_initParts]; omega)
  rcases h with ⟨res, its, heq, hsum, _, hres2, hsent, hmin⟩
  refine ⟨res, its, ?_, by rw [← length_initParts ranks piece]; omega, hres2, hsent, hmin⟩
  rw [bytePairMerge, ← findMin_initParts]
  exact heq

lemma partsToTokens_length (ranks : RankFn) (piece : List Nat) :
    ∀ parts ts, partsToTokens ranks piece parts = .ok ts →
      ts.length = parts.length - 1 := by
  intro parts
  induction parts with
  | nil => intro ts h; simp [partsToTokens] at h; simp [← h]
  | cons p rest ih =>
    intro ts h
    cases rest with
    | nil => simp [partsToTokens] at h; simp [← h]
    | cons q rest2 =>
      rw [partsToTokens] at h
      rcases h2 : ranks (byteSlice piece p.pos q.pos) with _ | t
      · rw [h2] at h; simp at h
      · rw [h2] at h
        simp only [bind, Except.bind] at h
        rcases h3 : partsToTokens ranks piece (q :: rest2) with e | ts2
        · rw [h3] at h; simp at h
        · rw [h3] at h
          simp at h
          have := ih ts2 h3
          simp [← h, this]

/-- Monad-bind on a known ok value reduces to the continuation. -/
lemma bind_ok_elim (a : α) (f : α → Except TokErr β) :
    (do let x ← (Except.ok a : Except TokErr α); f x) = f a := rfl

/-! Refinement lemmas: the coded merge loop against the spec-side one. -/

lemma initPartsSpec_eq (ranks : RankFn) (piece : List Nat) :
    initPartsSpec ranks piece = initParts ranks piece := rfl

lemma spanRankSpec_eq (ranks : RankFn) (piece : List Nat) (parts : List Part)
    (i : Nat) : spanRankSpec ranks piece parts i = getRank ranks piece parts i := by
  rw [spanRankSpec, getRank]
  by_cases hl : parts.length ≤ i + 3
  · rw [if_pos hl, nth_len_le _ _ hl]
  · rcases nth_lt parts (i + 3) (by omega) with ⟨q, hq⟩
    rw [if_neg hl, hq]
    have hqq : pget parts (i + 3) = q := by rw [pget, hq]; rfl
    rw [hqq]

lemma stepSpec_eq (ranks : RankFn) (piece : List Nat) (parts : List Part) (i : Nat) :
    stepSpec ranks piece parts i = mergeStep ranks piece parts i := by
  rw [stepSpec, mergeStep]
  simp only [spanRankSpec_eq]

lemma exists_concat (l : List α) (h : l ≠ []) : ∃ m x, l = m ++ [x] := by
  induction l with
  | nil => cases h rfl
  | cons a l ih =>
    cases l with
    | nil => exact ⟨[], a, rfl⟩
    | cons b t =>
      rcases ih (by simp) with ⟨m, x, hm⟩
      exact ⟨a :: m, x, by rw [hm]; rfl⟩

lemma findMinSpec_eq (parts : List Part) (hs : SentInv parts) (h1 : 1 ≤ parts.length) :
    findMinSpec parts = findMin parts := by
  have hne : parts ≠ [] := by
    intro hcon
    rw [hcon] at h1
    simp at h1
  rcases exists_concat parts hne with ⟨m, x, hm⟩
  have hx : x.rank = .inf := by
    apply hs m.length x
    · rw [hm]; simp
    · rw [hm, nth_append, if_neg (by omega)]
      simp [nth]
  rw [findMinSpec, findMin, hm, List.dropLast_concat, scanAll_append_inf m x hx]

lemma loop_agree (ranks : RankFn) (piece : List Nat) (maxIter : Nat) :
    ∀ fuelC fuelS parts iterations,
      SentInv parts → 2 ≤ parts.length →
      parts.length ≤ fuelC + 2 → parts.length ≤ fuelS + 2 →
      ∃ its, mergeLoop ranks piece maxIter fuelC parts (findMin parts) iterations =
        .ok (mergeLoopSpec ranks piece fuelS parts, its) := by
  intro fuelC
  induction fuelC with
  | zero =>
    intro fuelS parts it hs h2 hC hS
    by_cases hm : (findMin parts).rank = .inf
    · refine ⟨it, ?_⟩
      rw [mergeLoop, if_pos hm]
      cases fuelS with
      | zero => rw [mergeLoopSpec]
      | succ f =>
        simp only [mergeLoopSpec]
        rw [findMinSpec_eq parts hs (by omega), if_pos hm]
    · rcases findMin_finite parts hm with ⟨hidx, p, hp, hpr⟩
      have h3 : (findMin parts).idx + 3 ≤ parts.length := by
        by_contra hcon
        have := hs _ p (by omega) hp
        rw [this] at hpr
        exact hm hpr.symm
      omega
  | succ fuelC ih =>
    intro fuelS parts it hs h2 hC hS
    by_cases hm : (findMin parts).rank = .inf
    · refine ⟨it, ?_⟩
      rw [mergeLoop, if_pos hm]
      cases fuelS with
      | zero => rw [mergeLoopSpec]
      | succ f =>
        simp only [mergeLoopSpec]
        rw [findMinSpec_eq parts hs (by omega), if_pos hm]
    · rcases findMin_finite parts hm with ⟨hidx, p, hp, hpr⟩
      have h3 : (findMin parts).idx + 3 ≤ parts.length := by
        by_contra hcon
        have := hs _ p (by omega) hp
        rw [this] at hpr
        exact hm hpr.symm
      cases fuelS with
      | zero => omega
      | succ fS =>
        have hstep := sentInv_mergeStep ranks piece parts (findMin parts).idx hs h3
        have hlen := length_mergeStep ranks piece parts (findMin parts).idx (by omega)
        rcases ih fS (mergeStep ranks piece parts (findMin parts).idx) (it + 1)
          hstep (by omega) (by omega) (by omega) with ⟨its, heq⟩
        refine ⟨its, ?_⟩
        rw [mergeLoop, if_neg hm]
        simp only [mergeLoopSpec]
        rw [findMinSpec_eq parts hs (by omega), if_neg hm, stepSpec_eq]
        exact heq

/-- Claim C1: for every rank table and every piece of at least 2 bytes, the
coded merge loop of `_bytePairMerge` (iteration cap, incremental min
tracking, end-exclusive rescans) returns exactly the boundaries produced by
the spec's merge-loop semantics: pair-rank initialization with two infinite
sentinels, global leftmost-minimum selection, recomputation of the ranks at
i-1 and i against the boundary three positions ahead of the current list,
removal of the boundary after i, full rescan, and termination when no
finite rank remains. -/
theorem c1_merge_refines_spec (ranks : RankFn) (piece : List Nat)
    (h : 2 ≤ piece.length) :
    ∃ its, bytePairMerge ranks piece = .ok (bytePairMergeSpec ranks piece, its) := by
  rcases loop_agree ranks piece (piece.length * 2) (piece.length * 2) piece.length
      (initParts ranks piece) 0 (sentInv_initParts ranks piece)
      (by rw [length_initParts]; omega)
      (by rw [length_initParts]; omega)
      (by rw [length_initParts]; omega) with ⟨its, heq⟩
  refine ⟨its, ?_⟩
  rw [bytePairMerge, ← findMin_initParts, heq, bytePairMergeSpec, initPartsSpec_eq]

/-- Claim C1 witness. -/
theorem c1_merge_refines_spec_wit :
    2 ≤ ([1, 2, 3] : List Nat).length ∧
    ∃ its, bytePairMerge (fun bs => if bs = [1, 2] then some 7 else none) [1, 2, 3] =
      .ok (bytePairMergeSpec (fun bs => if bs = [1, 2] then some 7 else none) [1, 2, 3],
        its) :=
  ⟨by decide,
   c1_merge_refines_spec (fun bs => if bs = [1, 2] then some 7 else none) [1, 2, 3]
     (by decide)⟩

/-- Claim C7: on a single-byte piece, `BytePairEncoder.encode` returns
exactly the byte's rank when the length-1 key is present, and fails with the
vocabulary-gap error when it is absent. -/
theorem c7_single_byte (ranks : RankFn) (b : Nat) :
    (∀ t, ranks [b] = some t → bpeEncode ranks [b] = .ok [t]) ∧
    (ranks [b] = none → bpeEncode ranks [b] = .error (.singleByteGap b)) := by
  constructor
  · intro t ht
    simp [bpeEncode, ht]
  · intro ht
    simp [bpeEncode, ht]

/-- Claim C7 witness. -/
theorem c7_single_byte_wit :
    ((fun bs => if bs = [5] then some 42 else none) : RankFn) [5] = some 42 ∧
    bpeEncode (fun bs => if bs = [5] then some 42 else none) [5] = .ok [42] ∧
    ((fun bs => if bs = [7] then some 1 else none) : RankFn) [9] = none ∧
    bpeEncode (fun bs => if bs = [7] then some 1 else none) [9] =
      .error (.singleByteGap 9) :=
  ⟨by decide,
   (c7_single_byte (fun bs => if bs = [5] then some 42 else none) 5).1 42 (by decide),
   by decide,
   (c7_single_byte (fun bs => if bs = [7] then some 1 else none) 9).2 (by decide)⟩

/-- Claim C8: whenever `BytePairEncoder.encode` succeeds on a non-empty
piece of n bytes (under a rank table with all 256 single-byte keys), it
returns between 1 and n tokens. -/
theorem c8_token_count (ranks : RankFn) (piece : List Nat) (tokens : List Nat)
    (h256 : ∀ b, b < 256 → (ranks [b]).isSome)
    (hne : piece ≠ [])
    (henc : bpeEncode ranks piece = .ok tokens) :
    1 ≤ tokens.length ∧ tokens.length ≤ piece.length := by
  have hp0 : 1 ≤ piece.length := by
    cases piece
    · cases hne rfl
    · simp
  by_cases h1 : piece.length = 1
  · rw [bpeEncode, if_pos h1] at henc
    rcases h2 : ranks piece with _ | t
    · rw [h2] at henc
      cases henc
    · rw [h2] at henc
      cases henc
      constructor
      · simp
      · simp [h1]
  · rw [bpeEncode, if_neg h1] at henc
    rcases bytePairMerge_ok ranks piece with ⟨res, its, heq, hsum, hres2, _, _⟩
    rw [heq, bind_ok_elim] at henc
    have hlen := partsToTokens_length ranks piece res tokens henc
    constructor
    · omega
    · omega

/-- Claim C8 witness. -/
theorem c8_token_count_wit :
    (∀ b, b < 256 →
      (((fun bs => if bs.length = 1 then some (bs.headD 0) else none) : RankFn)
        [b]).isSome) ∧
    ([10, 20] : List Nat) ≠ [] ∧
    bpeEncode (fun bs => if bs.length = 1 then some (bs.headD 0) else none)
      [10, 20] = .ok [10, 20] ∧
    1 ≤ ([10, 20] : List Nat).length ∧ ([10, 20] : List Nat).length ≤
      ([10, 20] : List Nat).length :=
  ⟨fun b _ => by simp, by decide, by rfl,
   c8_token_count (fun bs => if bs.length = 1 then some (bs.headD 0) else none)
     [10, 20] [10, 20] (fun b _ => by simp) (by decide) (by rfl)⟩

/-- Claim C9: the merge loop always terminates within the 2 × pieceLength
iteration cap (first conjunct), and the cap-exceeded branch fails with the
diagnostic error carrying the incremented iteration count, the cap, the
piece length, the tracked minimum, and a snapshot of the current boundaries
(second conjunct). -/
theorem c9_merge_cap (ranks : RankFn) (piece : List Nat) :
    (∃ res its, bytePairMerge ranks piece = .ok (res, its) ∧
      its ≤ 2 * piece.length) ∧
    (∀ parts mr iterations, mr.rank ≠ .inf →
      mergeLoop ranks piece (piece.length * 2) 0 parts mr iterations =
        .error (.mergeOverflow ⟨iterations + 1, piece.length * 2, piece.length, mr,
          parts.length, parts.take 10⟩)) := by
  constructor
  · rcases bytePairMerge_ok ranks piece with ⟨res, its, heq, hsum, hres2, _, _⟩
    exact ⟨res, its, heq, by omega⟩
  · intro parts mr iterations hmr
    rw [mergeLoop, if_neg hmr]

/-- Claim C9 witness. -/
theorem c9_merge_cap_wit :
    (MinR.mk (.fin 0) 0).rank ≠ ERank.inf ∧
    mergeLoop (fun bs => if bs = [1, 2] then some 0 else none) [1, 2] 4 0
      [] ⟨.fin 0, 0⟩ 7 =
      .error (.mergeOverflow ⟨8, 4, 2, ⟨.fin 0, 0⟩, 0, []⟩) :=
  ⟨by decide,
   (c9_merge_cap (fun bs => if bs = [1, 2] then some 0 else none) [1, 2]).2
     [] ⟨.fin 0, 0⟩ 7 (by decide)⟩

/-- Claim C10: for every non-empty piece the cap branch of `_bytePairMerge`
is unreachable: the part list starts with pieceLength + 1 entries, each
iteration removes exactly one, and the loop runs at most pieceLength − 1
iterations, strictly below the 2 × pieceLength cap. -/
theorem c10_cap_unreachable (ranks : RankFn) (piece : List Nat)
    (h : 1 ≤ piece.length) :
    (initParts ranks piece).length = piece.length + 1 ∧
    ∃ res its, bytePairMerge ranks piece = .ok (res, its) ∧
      its + res.length = piece.length + 1 ∧
      its ≤ piece.length - 1 ∧ its < 2 * piece.length := by
  have hlen : (initParts ranks piece).length = piece.length + 1 := by
    rw [length_initParts]
    omega
  rcases bytePairMerge_ok ranks piece with ⟨res, its, heq, hsum, hres2, _, _⟩
  exact ⟨hlen, res, its, heq, by omega, by omega, by omega⟩

/-- Claim C10 witness. -/
theorem c10_cap_unreachable_wit :
    1 ≤ ([1, 2] : List Nat).length ∧
    ((initParts (fun _ => none) [1, 2]).length = ([1, 2] : List Nat).length + 1 ∧
    ∃ res its, bytePairMerge (fun _ => none) [1, 2] = .ok (res, its) ∧
      its + res.length = ([1, 2] : List Nat).length + 1 ∧
      its ≤ ([1, 2] : List Nat).length - 1 ∧
      its < 2 * ([1, 2] : List Nat).length) :=
  ⟨by decide, c10_cap_unreachable (fun _ => none) [1, 2] (by decide)⟩

/-! UTF-8 round trip. -/

lemma utf8Nat_length_pos (n : Nat) : 1 ≤ (utf8Nat n).length := by
  rw [utf8Nat]
  split
  · simp
  · split
    · simp
    · split <;> simp

lemma utf8Encode_cons (c : Char) (s : List Char) :
    utf8Encode (c :: s) = utf8Nat c.toNat ++ utf8Encode s := rfl

lemma utf8Encode_append (s t : List Char) :
    utf8Encode (s ++ t) = utf8Encode s ++ utf8Encode t := by
  simp [utf8Encode]

lemma char_valid (c : Char) :
    c.toNat < 0xD800 ∨ (0xDFFF < c.toNat ∧ c.toNat < 0x110000) := c.valid

lemma char_lt (c : Char) : c.toNat < 0x110000 := by
  rcases char_valid c with h | ⟨h1, h2⟩
  · omega
  · exact h2

lemma utf8Nat_lt_256 (n : Nat) (hn : n < 0x110000) :
    ∀ b ∈ utf8Nat n, b < 256 := by
  intro b hb
  rw [utf8Nat] at hb
  split at hb
  · simp at hb; omega
  · split at hb
    · simp at hb
      rcases hb with hb | hb <;> omega
    · split at hb
      · simp at hb
        rcases hb with hb | hb | hb <;> omega
      · simp at hb
        rcases hb with hb | hb | hb | hb <;> omega

lemma utf8Step_enc (c : Char) (rest : List Nat) :
    utf8Step (utf8Nat c.toNat ++ rest) = (some c.toNat, (utf8Nat c.toNat).length) := by
  have hlt : c.toNat < 0x110000 := char_lt c
  have hnosur : ¬ (0xD800 ≤ c.toNat ∧ c.toNat ≤ 0xDFFF) := by
    rcases char_valid c with h | ⟨h1, h2⟩
    · omega
    · omega
  revert hlt hnosur
  generalize c.toNat = n
  intro hlt hnosur
  have q1 : n / 64 / 64 = n / 4096 := by rw [Nat.div_div_eq_div_mul]
  have q2 : n / 4096 / 64 = n / 262144 := by rw [Nat.div_div_eq_div_mul]
  rw [utf8Nat]
  by_cases h1 : n < 0x80
  · rw [if_pos h1]
    show utf8Step (n :: rest) = _
    rw [utf8Step, if_pos (show n ≤ 0x7F by omega)]
    simp
  · rw [if_neg h1]
    by_cases h2 : n < 0x800
    · rw [if_pos h2]
      show utf8Step ((0xC0 + n / 64) :: (0x80 + n % 64) :: rest) = _
      rw [utf8Step]
      simp only [nth]
      split_ifs <;> first
        | (exfalso; omega)
        | (simp; omega)
    · rw [if_neg h2]
      by_cases h3 : n < 0x10000
      · rw [if_pos h3]
        show utf8Step
          ((0xE0 + n / 4096) :: (0x80 + n / 64 % 64) :: (0x80 + n % 64) :: rest) = _
        rw [utf8Step]
        simp only [nth]
        rw [if_neg (show ¬ (0xE0 + n / 4096 ≤ 0x7F) by omega),
          if_neg (show ¬ (0xC2 ≤ 0xE0 + n / 4096 ∧ 0xE0 + n / 4096 ≤ 0xDF) by omega),
          if_pos (show 0xE0 ≤ 0xE0 + n / 4096 ∧ 0xE0 + n / 4096 ≤ 0xEF by omega)]
        rw [if_pos (show (if 0xE0 + n / 4096 = 0xE0 then 0xA0 else 0x80) ≤
              0x80 + n / 64 % 64 ∧ 0x80 + n / 64 % 64 ≤
              (if 0xE0 + n / 4096 = 0xED then 0x9F else 0xBF) by
            constructor <;> split_ifs <;> omega)]
        rw [if_pos (show 0x80 ≤ 0x80 + n % 64 ∧ 0x80 + n % 64 ≤ 0xBF by omega)]
        simp only [Prod.mk.injEq, Option.some.injEq, List.length_cons, List.length_nil,
          and_true]
        omega
      · rw [if_neg h3]
        show utf8Step ((0xF0 + n / 262144) :: (0x80 + n / 4096 % 64) ::
          (0x80 + n / 64 % 64) :: (0x80 + n % 64) :: rest) = _
        rw [utf8Step]
        simp only [nth]
        rw [if_neg (show ¬ (0xF0 + n / 262144 ≤ 0x7F) by omega),
          if_neg (show ¬ (0xC2 ≤ 0xF0 + n / 262144 ∧ 0xF0 + n / 262144 ≤ 0xDF) by omega),
          if_neg (show ¬ (0xE0 ≤ 0xF0 + n / 262144 ∧ 0xF0 + n / 262144 ≤ 0xEF) by omega),
          if_pos (show 0xF0 ≤ 0xF0 + n / 262144 ∧ 0xF0 + n / 262144 ≤ 0xF4 by omega)]
        rw [if_pos (show (if 0xF0 + n / 262144 = 0xF0 then 0x90 else 0x80) ≤
              0x80 + n / 4096 % 64 ∧ 0x80 + n / 4096 % 64 ≤
              (if 0xF0 + n / 262144 = 0xF4 then 0x8F else 0xBF) by
            constructor <;> split_ifs <;> omega)]
        rw [if_pos (show 0x80 ≤ 0x80 + n / 64 % 64 ∧ 0x80 + n / 64 % 64 ≤ 0xBF by omega)]
        rw [if_pos (show 0x80 ≤ 0x80 + n % 64 ∧ 0x80 + n % 64 ≤ 0xBF by omega)]
        simp only [Prod.mk.injEq, Option.some.injEq, List.length_cons, List.length_nil,
          and_true]
        omega

lemma utf8Nat_cons (n : Nat) : ∃ b bs, utf8Nat n = b :: bs := by
  have := utf8Nat_length_pos n
  cases h : utf8Nat n with
  | nil => rw [h] at this; simp at this
  | cons b bs => exact ⟨b, bs, rfl⟩

lemma utf8ReplGo_enc :
    ∀ (s : List Char) (fuel : Nat), (utf8Encode s).length ≤ fuel →
      utf8ReplGo fuel (utf8Encode s) = s := by
  intro s
  induction s with
  | nil =>
    intro fuel h
    cases fuel <;> rfl
  | cons c s ih =>
    intro fuel h
    rw [utf8Encode_cons] at h ⊢
    have hlen1 := utf8Nat_length_pos c.toNat
    cases fuel with
    | zero =>
      exfalso
      rw [List.length_append] at h
      omega
    | succ fuel =>
      rcases utf8Nat_cons c.toNat with ⟨b, bs0, hb⟩
      rw [hb, List.cons_append, utf8ReplGo, ← List.cons_append, ← hb, utf8Step_enc]
      simp only []
      rw [List.drop_left]
      have hrest : (utf8Encode s).length ≤ fuel := by
        rw [List.length_append] at h
        omega
      rw [ih fuel hrest, Char.ofNat_toNat]

lemma utf8Repl_enc (s : List Char) : utf8Repl (utf8Encode s) = s :=
  utf8ReplGo_enc s (utf8Encode s).length (Nat.le_refl _)

/-! JS Map lemmas and the decode-table inverse. -/

lemma mapGet_mem [DecidableEq α] (m : List (α × β)) (k : α) (v : β)
    (h : mapGet m k = some v) : (k, v) ∈ m := by
  induction m with
  | nil => simp [mapGet] at h
  | cons e rest ih =>
    rw [mapGet] at h
    by_cases he : e.1 = k
    · rw [if_pos he] at h
      injection h with h2
      have he2 : e = (k, v) := by
        rcases e with ⟨e1, e2⟩
        simp at he h2
        rw [he, h2]
      rw [← he2]
      exact List.mem_cons_self e rest
    · rw [if_neg he] at h
      exact List.mem_cons_of_mem e (ih h)

lemma mapGet_of_mem_nodup [DecidableEq α] (m : List (α × β)) (k : α) (v : β)
    (hnd : (m.map Prod.fst).Nodup) (h : (k, v) ∈ m) : mapGet m k = some v := by
  induction m with
  | nil => simp at h
  | cons e rest ih =>
    rw [List.map_cons, List.nodup_cons] at hnd
    rcases List.mem_cons.1 h with h1 | h1
    · rw [mapGet, ← h1]
      simp
    · by_cases he : e.1 = k
      · exfalso
        apply hnd.1
        rw [he]
        exact List.mem_map.2 ⟨(k, v), h1, rfl⟩
      · rw [mapGet, if_neg he]
        exact ih hnd.2 h1

lemma mapGet_append [DecidableEq α] (m1 m2 : List (α × β)) (k : α) :
    mapGet (m1 ++ m2) k =
      match mapGet m1 k with
      | some v => some v
      | none => mapGet m2 k := by
  induction m1 with
  | nil => simp [mapGet]
  | cons e rest ih =>
    rw [List.cons_append, mapGet, mapGet]
    by_cases he : e.1 = k
    · rw [if_pos he, if_pos he]
    · rw [if_neg he, if_neg he, ih]

lemma mapSet_get_none [DecidableEq α] (m : List (α × β)) (k : α) (v : β)
    (h : mapGet m k = none) : mapSet m k v = m ++ [(k, v)] := by
  induction m with
  | nil => rfl
  | cons e rest ih =>
    rw [mapGet] at h
    by_cases he : e.1 = k
    · rw [if_pos he] at h
      cases h
    · rw [if_neg he] at h
      rw [mapSet, if_neg he, ih h, List.cons_append]

lemma foldl_mapSet_swap :
    ∀ (entries : List (List Nat × Nat)) (m : List (Nat × List Nat)),
      (entries.map Prod.snd).Nodup →
      (∀ e ∈ entries, mapGet m e.2 = none) →
      entries.foldl (fun acc e => mapSet acc e.2 e.1) m =
        m ++ entries.map (fun e => (e.2, e.1)) := by
  intro entries
  induction entries with
  | nil => intro m _ _; simp
  | cons e rest ih =>
    intro m hnd hnone
    rw [List.map_cons, List.nodup_cons] at hnd
    rw [List.foldl_cons, mapSet_get_none m e.2 e.1 (hnone e (List.mem_cons_self e rest))]
    have hnn : ∀ f ∈ rest, mapGet (m ++ [(e.2, e.1)]) f.2 = none := by
      intro f hf
      rw [mapGet_append]
      rw [hnone f (List.mem_cons_of_mem e hf)]
      rw [mapGet]
      have hne2 : ¬ ((e.2, e.1).1 = f.2) := by
        simp only []
        intro hcon
        apply hnd.1
        rw [hcon]
        exact List.mem_map.2 ⟨f, hf, rfl⟩
      rw [if_neg hne2]
      rfl
    rw [ih (m ++ [(e.2, e.1)]) hnd.2 hnn]
    simp

/-- Under distinct ranks, the constructed decode table inverts the rank
table: looking up the rank of a byte sequence gives the sequence back. -/
lemma decoder_inverse (entries : List (List Nat × Nat))
    (hvals : (entries.map Prod.snd).Nodup)
    (bs : List Nat) (r : Nat) (h : ranksGet entries bs = some r) :
    mapGet (entries.foldl (fun acc e => mapSet acc e.2 e.1) []) r = some bs := by
  rw [foldl_mapSet_swap entries [] hvals (by intro e _; rfl), List.nil_append]
  apply mapGet_of_mem_nodup
  · have hmk : (entries.map fun e => (e.2, e.1)).map Prod.fst = entries.map Prod.snd := by
      simp
    rw [hmk]
    exact hvals
  · exact List.mem_map.2 ⟨(bs, r), mapGet_mem entries bs r h, rfl⟩

lemma mapME_append (f : α → Except TokErr β) (l1 l2 : List α) :
    mapME f (l1 ++ l2) = (do
      let a ← mapME f l1
      let b ← mapME f l2
      Except.ok (a ++ b)) := by
  induction l1 with
  | nil =>
    simp only [List.nil_append, mapME]
    rcases mapME f l2 with e | b <;> rfl
  | cons x l ih =>
    show mapME f (x :: (l ++ l2)) = _
    simp only [mapME]
    rw [ih]
    rcases f x with e | bx
    · rfl
    · simp only [bind_ok_elim]
      rcases mapME f l with e | bl
      · rfl
      · simp only [bind_ok_elim]
        rcases mapME f l2 with e | b2
        · rfl
        · simp only [bind_ok_elim]
          rfl

lemma decodeBytes_append (enc : Encoding) (t1 t2 : List Nat) (b1 b2 : List Nat)
    (h1 : decodeBytes enc t1 = .ok b1) (h2 : decodeBytes enc t2 = .ok b2) :
    decodeBytes enc (t1 ++ t2) = .ok (b1 ++ b2) := by
  rw [decodeBytes] at h1 h2 ⊢
  rcases hm1 : mapME (decodeOne enc) t1 with e | arrs1
  · rw [hm1] at h1
    cases h1
  · rw [hm1] at h1
    rcases hm2 : mapME (decodeOne enc) t2 with e | arrs2
    · rw [hm2] at h2
      cases h2
    · rw [hm2] at h2
      rw [mapME_append, hm1, hm2]
      rw [bind_ok_elim] at h1 h2
      rw [bind_ok_elim, bind_ok_elim]
      injection h1 with h1
      injection h2 with h2
      rw [bind_ok_elim, ← h1, ← h2, List.flatten_append]

/-! Position and segment invariants of the merge loop, used for the
round-trip claim. -/

/-- The merged-span rank of entry j against the boundary two positions ahead
in the current list: the meaning the loop maintains for every stored rank. -/
def pairSpan (ranks : RankFn) (piece : List Nat) (parts : List Part) (j : Nat) : ERank :=
  match nth parts (j + 2) with
  | none => .inf
  | some pk =>
      match ranks (byteSlice piece (pget parts j).pos pk.pos) with
      | some r => .fin r
      | none => .inf

/-- Every stored rank equals the merged-span rank. -/
def RankInv (ranks : RankFn) (piece : List Nat) (parts : List Part) : Prop :=
  ∀ j pj, nth parts j = some pj → pj.rank = pairSpan ranks piece parts j

/-- Boundaries run from 0 to the piece length, strictly increasing, and
every current segment is a single byte or a rank-table key. -/
def SegInv (ranks : RankFn) (piece : List Nat) (parts : List Part) : Prop :=
  (∃ p0, nth parts 0 = some p0 ∧ p0.pos = 0) ∧
  (∃ pl, nth parts (parts.length - 1) = some pl ∧ pl.pos = piece.length) ∧
  (∀ j pj pk, nth parts j = some pj → nth parts (j + 1) = some pk → pj.pos < pk.pos) ∧
  (∀ j pj pk, nth parts j = some pj → nth parts (j + 1) = some pk →
    (byteSlice piece pj.pos pk.pos).length = 1 ∨
      (ranks (byteSlice piece pj.pos pk.pos)).isSome)

/-- Exactly where each entry of the part list lands after one merge step. -/
lemma nth_mergeStep (ranks : RankFn) (piece : List Nat) (parts : List Part) (i : Nat)
    (h3 : i + 3 ≤ parts.length) (j : Nat) :
    nth (mergeStep ranks piece parts i) j =
      if j + 1 < i then nth parts j
      else if j + 1 = i then some ⟨(pget parts j).pos, getRank ranks piece parts j⟩
      else if j = i then some ⟨(pget parts i).pos, getRank ranks piece parts i⟩
      else nth parts (j + 1) := by
  rw [mergeStep]
  set parts1 := (if 0 < i then
      setNth parts (i - 1) ⟨(pget parts (i - 1)).pos, getRank ranks piece parts (i - 1)⟩
    else parts) with hparts1
  have hl1 : parts1.length = parts.length := by
    rw [hparts1]
    by_cases hi : 0 < i
    · rw [if_pos hi, length_setNth]
    · rw [if_neg hi]
  have hpos1 : ∀ k, (pget parts1 k).pos = (pget parts k).pos := by
    rw [hparts1]
    exact mergeStep_parts1_pos ranks piece parts i
  have hgr : getRank ranks piece parts1 i = getRank ranks piece parts i :=
    getRank_congr ranks piece parts1 parts i hl1 hpos1
  have hl2 : (setNth parts1 i ⟨(pget parts1 i).pos, getRank ranks piece parts1 i⟩).length
      = parts.length := by rw [length_setNth, hl1]
  rw [nth_delNth _ _ _ (by rw [hl2]; omega)]
  by_cases hj1 : j < i + 1
  · rw [if_pos hj1, nth_setNth]
    by_cases hji : j = i
    · rw [if_pos ⟨hji, by omega⟩]
      rw [if_neg (by omega), if_neg (by omega), if_pos hji, hpos1, hgr]
    · rw [if_neg (fun hc => hji hc.1)]
      rw [hparts1]
      by_cases hi : 0 < i
      · rw [if_pos hi, nth_setNth]
        by_cases hji2 : j = i - 1
        · rw [if_pos ⟨hji2, by omega⟩]
          rw [if_neg (by omega), if_pos (by omega), hji2]
        · rw [if_neg (fun hc => hji2 hc.1)]
          rw [if_pos (by omega)]
      · rw [if_neg hi]
        exfalso
        omega
  · rw [if_neg hj1, nth_setNth, if_neg (by omega)]
    rw [hparts1]
    by_cases hi : 0 < i
    · rw [if_pos hi, nth_setNth, if_neg (by omega)]
      rw [if_neg (by omega), if_neg (by omega), if_neg (by omega)]
    · rw [if_neg hi]
      rw [if_neg (by omega), if_neg (by omega), if_neg (by omega)]

/-- Each surviving entry keeps the position of its source entry: index j
came from old index j when j ≤ i, else from old index j + 1. -/
lemma nth_mergeStep_pos (ranks : RankFn) (piece : List Nat) (parts : List Part)
    (i : Nat) (h3 : i + 3 ≤ parts.length) (j : Nat) (pj2 : Part)
    (h : nth (mergeStep ranks piece parts i) j = some pj2) :
    ∃ po, nth parts (if j ≤ i then j else j + 1) = some po ∧ po.pos = pj2.pos := by
  rw [nth_mergeStep ranks piece parts i h3 j] at h
  by_cases h1 : j + 1 < i
  · rw [if_pos h1] at h
    exact ⟨pj2, by rw [if_pos (by omega)]; exact h, rfl⟩
  · rw [if_neg h1] at h
    by_cases h2 : j + 1 = i
    · rw [if_pos h2] at h
      injection h with h
      rcases nth_lt parts j (by omega) with ⟨po, hpo⟩
      refine ⟨po, by rw [if_pos (by omega)]; exact hpo, ?_⟩
      rw [← h, pget, hpo]
      rfl
    · rw [if_neg h2] at h
      by_cases hj : j = i
      · rw [if_pos hj] at h
        injection h with h
        rcases nth_lt parts i (by omega) with ⟨po, hpo⟩
        refine ⟨po, by rw [if_pos (by omega), hj]; exact hpo, ?_⟩
        rw [← h, pget, hpo]
        rfl
      · rw [if_neg hj] at h
        exact ⟨pj2, by rw [if_neg (by omega)]; exact h, rfl⟩

lemma byteSlice_length (piece : List Nat) (a b : Nat) :
    (byteSlice piece a b).length = min (b - a) (piece.length - a) := by
  simp [byteSlice]

lemma byteSlice_full (piece : List Nat) :
    byteSlice piece 0 piece.length = piece := by
  simp [byteSlice]

lemma byteSlice_glue (piece : List Nat) (a b c : Nat) (h1 : a ≤ b) (h2 : b ≤ c) :
    byteSlice piece a b ++ byteSlice piece b c = byteSlice piece a c := by
  rw [byteSlice, byteSlice, byteSlice]
  have hc : c - a = (b - a) + (c - b) := by omega
  rw [hc, List.take_add, List.drop_drop]
  have hb : a + (b - a) = b := by omega
  rw [hb]

lemma byteSlice_subset (piece : List Nat) (a b : Nat) (x : Nat)
    (h : x ∈ byteSlice piece a b) : x ∈ piece := by
  rw [byteSlice] at h
  exact List.mem_of_mem_drop (List.mem_of_mem_take h)

lemma nth_initParts (ranks : RankFn) (piece : List Nat) (h1 : 1 ≤ piece.length)
    (j : Nat) :
    nth (initParts ranks piece) j =
      if j < piece.length - 1 then some ⟨j, pairRank ranks piece j⟩
      else if j = piece.length - 1 then some ⟨piece.length - 1, .inf⟩
      else if j = piece.length then some ⟨piece.length, .inf⟩
      else none := by
  rw [initParts, nth_append, length_pairParts]
  by_cases hj : j < piece.length - 1
  · rw [if_pos hj, if_pos hj, pairParts, nth_map, nth_range, if_pos hj]
    rfl
  · rw [if_neg hj, if_neg hj]
    by_cases hj2 : j = piece.length - 1
    · rw [if_pos hj2]
      have hz : j - (piece.length - 1) = 0 := by omega
      rw [hz]
      rfl
    · rw [if_neg hj2]
      by_cases hj3 : j = piece.length
      · rw [if_pos hj3]
        have hz : j - (piece.length - 1) = 1 := by omega
        rw [hz]
        rfl
      · rw [if_neg hj3]
        apply nth_len_le
        simp only [List.length_cons, List.length_nil]
        omega

lemma nth_initParts_posval (ranks : RankFn) (piece : List Nat)
    (h1 : 1 ≤ piece.length) (j : Nat) (p : Part)
    (h : nth (initParts ranks piece) j = some p) : p.pos = j ∧ j ≤ piece.length := by
  rw [nth_initParts ranks piece h1 j] at h
  by_cases hj : j < piece.length - 1
  · rw [if_pos hj] at h
    injection h with h
    rw [← h]
    exact ⟨rfl, by omega⟩
  · rw [if_neg hj] at h
    by_cases hj2 : j = piece.length - 1
    · rw [if_pos hj2] at h
      injection h with h
      rw [← h]
      refine ⟨show piece.length - 1 = j by omega, by omega⟩
    · rw [if_neg hj2] at h
      by_cases hj3 : j = piece.length
      · rw [if_pos hj3] at h
        injection h with h
        rw [← h]
        refine ⟨show piece.length = j by omega, by omega⟩
      · rw [if_neg hj3] at h
        cases h

lemma segInv_initParts (ranks : RankFn) (piece : List Nat) (h1 : 1 ≤ piece.length) :
    SegInv ranks piece (initParts ranks piece) := by
  have hlen := length_initParts ranks piece
  refine ⟨?_, ?_, ?_, ?_⟩
  · rcases nth_lt (initParts ranks piece) 0 (by omega) with ⟨p0, hp0⟩
    exact ⟨p0, hp0, ((nth_initParts_posval ranks piece h1 0 p0 hp0).1)⟩
  · rcases nth_lt (initParts ranks piece) ((initParts ranks piece).length - 1)
      (by omega) with ⟨pl, hpl⟩
    refine ⟨pl, hpl, ?_⟩
    have := nth_initParts_posval ranks piece h1 _ pl hpl
    rw [this.1, hlen]
    omega
  · intro j pj pk hj hk
    have hj2 := nth_initParts_posval ranks piece h1 j pj hj
    have hk2 := nth_initParts_posval ranks piece h1 (j + 1) pk hk
    rw [hj2.1, hk2.1]
    omega
  · intro j pj pk hj hk
    have hj2 := nth_initParts_posval ranks piece h1 j pj hj
    have hk2 := nth_initParts_posval ranks piece h1 (j + 1) pk hk
    left
    rw [hj2.1, hk2.1, byteSlice_length]
    have : j + 1 ≤ piece.length := hk2.2
    omega

lemma rankInv_initParts (ranks : RankFn) (piece : List Nat) (h1 : 1 ≤ piece.length) :
    RankInv ranks piece (initParts ranks piece) := by
  intro j pj hj
  have hlen := length_initParts ranks piece
  have hjv := nth_initParts_posval ranks piece h1 j pj hj
  rw [nth_initParts ranks piece h1 j] at hj
  by_cases hjp : j < piece.length - 1
  · rw [if_pos hjp] at hj
    injection hj with hj
    rcases nth_lt (initParts ranks piece) (j + 2) (by omega) with ⟨pk, hpk⟩
    have hkv := nth_initParts_posval ranks piece h1 (j + 2) pk hpk
    have hnj : nth (initParts ranks piece) j = some pj := by
      rw [nth_initParts ranks piece h1 j, if_pos hjp, hj]
    have hpg : pget (initParts ranks piece) j = pj := by
      rw [pget, hnj]
      rfl
    have hps : pairSpan ranks piece (initParts ranks piece) j =
        match ranks (byteSlice piece (pget (initParts ranks piece) j).pos pk.pos) with
        | some r => ERank.fin r
        | none => ERank.inf := by
      rw [pairSpan, hpk]
    rw [hps, hpg, hjv.1, hkv.1, ← hj]
    show pairRank ranks piece j = _
    rw [pairRank]
  · rw [if_neg hjp] at hj
    have hrk : pj.rank = ERank.inf := by
      by_cases hj2 : j = piece.length - 1
      · rw [if_pos hj2] at hj
        injection hj with hj
        rw [← hj]
      · rw [if_neg hj2] at hj
        by_cases hj3 : j = piece.length
        · rw [if_pos hj3] at hj
          injection hj with hj
          rw [← hj]
        · rw [if_neg hj3] at hj
          cases hj
    rw [hrk, pairSpan, nth_len_le _ _ (by rw [hlen]; omega)]
lemma pget_eq (parts : List Part) (j : Nat) (p : Part) (h : nth parts j = some p) :
    pget parts j = p := by
  rw [pget, h]
  rfl

lemma pairSpan_eq_of (ranks : RankFn) (piece : List Nat) (parts : List Part)
    (j a b : Nat) (hja : (pget parts j).pos = a)
    (hk : ∃ pk, nth parts (j + 2) = some pk ∧ pk.pos = b) :
    pairSpan ranks piece parts j =
      match ranks (byteSlice piece a b) with
      | some r => ERank.fin r
      | none => ERank.inf := by
  rcases hk with ⟨pk, hpk, hpkv⟩
  rw [pairSpan, hpk]
  have hred : (match (some pk : Option Part) with
      | none => ERank.inf
      | some pk2 =>
          match ranks (byteSlice piece (pget parts j).pos pk2.pos) with
          | some r => ERank.fin r
          | none => ERank.inf) =
      match ranks (byteSlice piece (pget parts j).pos pk.pos) with
      | some r => ERank.fin r
      | none => ERank.inf := rfl
  rw [hred, hja, hpkv]

lemma pairSpan_none (ranks : RankFn) (piece : List Nat) (parts : List Part)
    (j : Nat) (h : nth parts (j + 2) = none) :
    pairSpan ranks piece parts j = .inf := by
  rw [pairSpan, h]

/-- Forward form of `nth_mergeStep_pos`: every index below the new length is
populated, with the position of its source entry. -/
lemma nth_mergeStep_srcpos (ranks : RankFn) (piece : List Nat) (parts : List Part)
    (i : Nat) (h3 : i + 3 ≤ parts.length) (j : Nat) (hjl : j + 1 < parts.length) :
    ∃ q po, nth (mergeStep ranks piece parts i) j = some q ∧
      nth parts (if j ≤ i then j else j + 1) = some po ∧ q.pos = po.pos := by
  have hlen := length_mergeStep ranks piece parts i (by omega)
  rcases nth_lt (mergeStep ranks piece parts i) j (by omega) with ⟨q, hq⟩
  rcases nth_mergeStep_pos ranks piece parts i h3 j q hq with ⟨po, hpo, hpov⟩
  exact ⟨q, po, hq, hpo, hpov.symm⟩

lemma segInv_mergeStep (ranks : RankFn) (piece : List Nat) (parts : List Part)
    (i : Nat) (h3 : i + 3 ≤ parts.length)
    (hseg : SegInv ranks piece parts) (hrank : RankInv ranks piece parts)
    (pi2 : Part) (hpi : nth parts i = some pi2) (hfin : pi2.rank ≠ .inf) :
    SegInv ranks piece (mergeStep ranks piece parts i) := by
  obtain ⟨⟨p0, hp0, hp0v⟩, ⟨pl, hpl, hplv⟩, hmono, hsegs⟩ := hseg
  have hlen := length_mergeStep ranks piece parts i (by omega)
  refine ⟨?_, ?_, ?_, ?_⟩
  · rcases nth_lt (mergeStep ranks piece parts i) 0 (by omega) with ⟨q, hq⟩
    rcases nth_mergeStep_pos ranks piece parts i h3 0 q hq with ⟨po, hpo, hpov⟩
    rw [if_pos (by omega), hp0] at hpo
    injection hpo with hpo
    refine ⟨q, hq, ?_⟩
    rw [← hpov, ← hpo]
    exact hp0v
  · rcases nth_lt (mergeStep ranks piece parts i)
      ((mergeStep ranks piece parts i).length - 1) (by omega) with ⟨q, hq⟩
    rcases nth_mergeStep_pos ranks piece parts i h3 _ q hq with ⟨po, hpo, hpov⟩
    rw [if_neg (by omega)] at hpo
    have hidx : (mergeStep ranks piece parts i).length - 1 + 1 = parts.length - 1 := by
      omega
    rw [hidx, hpl] at hpo
    injection hpo with hpo
    refine ⟨q, hq, ?_⟩
    rw [← hpov, ← hpo]
    exact hplv
  · intro j pj pk hj hk
    rcases nth_mergeStep_pos ranks piece parts i h3 j pj hj with ⟨pa, hpa, hpav⟩
    rcases nth_mergeStep_pos ranks piece parts i h3 (j + 1) pk hk with ⟨pb, hpb, hpbv⟩
    rw [← hpav, ← hpbv]
    by_cases hji : j ≤ i
    · rw [if_pos hji] at hpa
      by_cases hji2 : j + 1 ≤ i
      · rw [if_pos hji2] at hpb
        exact hmono j pa pb hpa hpb
      · rw [if_neg hji2] at hpb
        rcases nth_lt parts (j + 1) (by omega) with ⟨pm, hpm⟩
        exact lt_trans (hmono j pa pm hpa hpm) (hmono (j + 1) pm pb hpm hpb)
    · rw [if_neg hji] at hpa
      rw [if_neg (by omega)] at hpb
      exact hmono (j + 1) pa pb hpa hpb
  · intro j pj pk hj hk
    rcases nth_mergeStep_pos ranks piece parts i h3 j pj hj with ⟨pa, hpa, hpav⟩
    rcases nth_mergeStep_pos ranks piece parts i h3 (j + 1) pk hk with ⟨pb, hpb, hpbv⟩
    by_cases hji : j = i
    · rw [if_pos (by omega)] at hpa
      rw [if_neg (by omega)] at hpb
      right
      have hri := hrank i pi2 hpi
      rw [pairSpan] at hri
      have hpb2 : nth parts (i + 2) = some pb := by
        rw [← hji]
        exact hpb
      rw [hpb2] at hri
      have hpg : pget parts i = pi2 := pget_eq parts i pi2 hpi
      have hred : (match (some pb : Option Part) with
          | none => ERank.inf
          | some pk2 =>
              match ranks (byteSlice piece (pget parts i).pos pk2.pos) with
              | some r => ERank.fin r
              | none => ERank.inf) =
          match ranks (byteSlice piece (pget parts i).pos pb.pos) with
          | some r => ERank.fin r
          | none => ERank.inf := rfl
    
      rw [hred, hpg] at hri
      rcases hrr : ranks (byteSlice piece pi2.pos pb.pos) with _ | r
      · rw [hrr] at hri
        exact absurd hri hfin
      · rw [hji, hpi] at hpa
        injection hpa with hpa
        rw [← hpav, ← hpbv, ← hpa, hrr]
        rfl
    · rw [← hpav, ← hpbv]
      by_cases hjlt : j ≤ i
      · rw [if_pos hjlt] at hpa
        rw [if_pos (by omega)] at hpb
        exact hsegs j pa pb hpa hpb
      · rw [if_neg hjlt] at hpa
        rw [if_neg (by omega)] at hpb
        exact hsegs (j + 1) pa pb hpa hpb
lemma rankInv_mergeStep (ranks : RankFn) (piece : List Nat) (parts : List Part)
    (i : Nat) (h3 : i + 3 ≤ parts.length) (hrank : RankInv ranks piece parts) :
    RankInv ranks piece (mergeStep ranks piece parts i) := by
  intro j pj2 hj0
  have hlen := length_mergeStep ranks piece parts i (by omega)
  have hpgE : pget (mergeStep ranks piece parts i) j = pj2 := pget_eq _ j pj2 hj0
  have hj := hj0
  rw [nth_mergeStep ranks piece parts i h3 j] at hj
  by_cases hA : j + 1 < i
  · rw [if_pos hA] at hj
    rcases nth_lt parts (j + 2) (by omega) with ⟨pk, hpk⟩
    have hold := hrank j pj2 hj
    have ha : (pget parts j).pos = pj2.pos := by rw [pget_eq parts j pj2 hj]
    rw [pairSpan_eq_of ranks piece parts j pj2.pos pk.pos ha ⟨pk, hpk, rfl⟩] at hold
    rcases nth_mergeStep_srcpos ranks piece parts i h3 (j + 2) (by omega) with
      ⟨q, po, hq, hpo, hqv⟩
    rw [if_pos (by omega), hpk] at hpo
    injection hpo with hpo
    have haE : (pget (mergeStep ranks piece parts i) j).pos = pj2.pos := by rw [hpgE]
    rw [pairSpan_eq_of ranks piece _ j pj2.pos pk.pos haE
      ⟨q, hq, by rw [hqv, ← hpo]⟩]
    exact hold
  · rw [if_neg hA] at hj
    by_cases hB : j + 1 = i
    · rw [if_pos hB] at hj
      injection hj with hj
      rcases nth_lt parts (j + 3) (by omega) with ⟨pw, hpw⟩
      have hgr : pj2.rank =
          match ranks (byteSlice piece (pget parts j).pos pw.pos) with
          | some r => ERank.fin r
          | none => ERank.inf := by
        rw [← hj]
        show getRank ranks piece parts j = _
        rw [getRank, if_neg (by omega), pget_eq parts (j + 3) pw hpw]
      rcases nth_mergeStep_srcpos ranks piece parts i h3 (j + 2) (by omega) with
        ⟨q, po, hq, hpo, hqv⟩
      rw [if_neg (by omega)] at hpo
      have h23 : j + 2 + 1 = j + 3 := by omega
      rw [h23, hpw] at hpo
      injection hpo with hpo
      have haE : (pget (mergeStep ranks piece parts i) j).pos = pj2.pos := by rw [hpgE]
      rw [pairSpan_eq_of ranks piece _ j pj2.pos pw.pos haE
        ⟨q, hq, by rw [hqv, ← hpo]⟩]
      rw [hgr]
      have hpos : pj2.pos = (pget parts j).pos := by rw [← hj]
      rw [hpos]
    · by_cases hC : j = i
      · rw [if_neg hB, if_pos hC] at hj
        injection hj with hj
        by_cases hD : parts.length ≤ i + 3
        · have hrk : pj2.rank = ERank.inf := by
            rw [← hj]
            show getRank ranks piece parts i = _
            rw [getRank, if_pos hD]
          rw [hrk, pairSpan_none ranks piece (mergeStep ranks piece parts i) j
            (nth_len_le _ _ (by rw [hlen]; omega))]
        · rcases nth_lt parts (i + 3) (by omega) with ⟨pw, hpw⟩
          have hgr : pj2.rank =
              match ranks (byteSlice piece (pget parts i).pos pw.pos) with
              | some r => ERank.fin r
              | none => ERank.inf := by
            rw [← hj]
            show getRank ranks piece parts i = _
            rw [getRank, if_neg hD, pget_eq parts (i + 3) pw hpw]
          rcases nth_mergeStep_srcpos ranks piece parts i h3 (j + 2) (by omega) with
            ⟨q, po, hq, hpo, hqv⟩
          rw [if_neg (by omega)] at hpo
          have h23 : j + 2 + 1 = i + 3 := by omega
          rw [h23, hpw] at hpo
          injection hpo with hpo
          have haE : (pget (mergeStep ranks piece parts i) j).pos = pj2.pos := by
            rw [hpgE]
          rw [pairSpan_eq_of ranks piece _ j pj2.pos pw.pos haE
            ⟨q, hq, by rw [hqv, ← hpo]⟩]
          rw [hgr]
          have hpos : pj2.pos = (pget parts i).pos := by rw [← hj]
          rw [hpos]
      · rw [if_neg hB, if_neg hC] at hj
        have hold := hrank (j + 1) pj2 hj
        have ha : (pget parts (j + 1)).pos = pj2.pos := by
          rw [pget_eq parts (j + 1) pj2 hj]
        by_cases hD : parts.length ≤ j + 3
        · rw [pairSpan_none ranks piece parts (j + 1)
            (nth_len_le _ _ (by omega))] at hold
          rw [hold, pairSpan_none ranks piece (mergeStep ranks piece parts i) j
            (nth_len_le _ _ (by rw [hlen]; omega))]
        · rcases nth_lt parts (j + 3) (by omega) with ⟨pk, hpk⟩
          have h123 : j + 1 + 2 = j + 3 := by omega
          rw [pairSpan_eq_of ranks piece parts (j + 1) pj2.pos pk.pos ha
            ⟨pk, by rw [h123]; exact hpk, rfl⟩] at hold
          rcases nth_mergeStep_srcpos ranks piece parts i h3 (j + 2) (by omega) with
            ⟨q, po, hq, hpo, hqv⟩
          rw [if_neg (by omega)] at hpo
          have h23 : j + 2 + 1 = j + 3 := by omega
          rw [h23, hpk] at hpo
          injection hpo with hpo
          have haE : (pget (mergeStep ranks piece parts i) j).pos = pj2.pos := by
            rw [hpgE]
          rw [pairSpan_eq_of ranks piece _ j pj2.pos pk.pos haE
            ⟨q, hq, by rw [hqv, ← hpo]⟩]
          exact hold
lemma mergeLoop_SegInv (ranks : RankFn) (piece : List Nat) (maxIter : Nat) :
    ∀ fuel parts iterations res its,
      SentInv parts → SegInv ranks piece parts → RankInv ranks piece parts →
      mergeLoop ranks piece maxIter fuel parts (findMin parts) iterations =
        .ok (res, its) →
      SegInv ranks piece res := by
  intro fuel
  induction fuel with
  | zero =>
    intro parts iterations res its hsent hseg hrank heq
    by_cases hm : (findMin parts).rank = .inf
    · rw [mergeLoop, if_pos hm] at heq
      injection heq with heq
      cases heq
      exact hseg
    · rw [mergeLoop, if_neg hm] at heq
      cases heq
  | succ fuel ih =>
    intro parts iterations res its hsent hseg hrank heq
    by_cases hm : (findMin parts).rank = .inf
    · rw [mergeLoop, if_pos hm] at heq
      injection heq with heq
      cases heq
      exact hseg
    · rcases findMin_finite parts hm with ⟨hidx, p, hp, hpr⟩
      have h3 : (findMin parts).idx + 3 ≤ parts.length := by
        by_contra hcon
        have := hsent _ p (by omega) hp
        rw [this] at hpr
        exact hm hpr.symm
      rw [mergeLoop, if_neg hm] at heq
      exact ih (mergeStep ranks piece parts (findMin parts).idx) (iterations + 1) res its
        (sentInv_mergeStep ranks piece parts (findMin parts).idx hsent h3)
        (segInv_mergeStep ranks piece parts (findMin parts).idx h3 hseg hrank p hp
          (by rw [hpr]; exact hm))
        (rankInv_mergeStep ranks piece parts (findMin parts).idx h3 hrank)
        heq

/-- The byte segments between adjacent boundaries of a part list. -/
def segsOf (piece : List Nat) : List Part → List (List Nat)
  | [] => []
  | [_] => []
  | p :: q :: rest => byteSlice piece p.pos q.pos :: segsOf piece (q :: rest)

lemma partsToTokens_ok_all (ranks : RankFn) (piece : List Nat) :
    ∀ parts,
      (∀ j pj pk, nth parts j = some pj → nth parts (j + 1) = some pk →
        (ranks (byteSlice piece pj.pos pk.pos)).isSome) →
      ∃ ts, partsToTokens ranks piece parts = .ok ts ∧
        List.Forall₂ (fun sgm t => ranks sgm = some t) (segsOf piece parts) ts := by
  intro parts
  induction parts with
  | nil => intro _; exact ⟨[], rfl, List.Forall₂.nil⟩
  | cons p rest ih =>
    intro hall
    cases rest with
    | nil => exact ⟨[], rfl, List.Forall₂.nil⟩
    | cons q rest2 =>
      have h0 := hall 0 p q rfl rfl
      rcases hq : ranks (byteSlice piece p.pos q.pos) with _ | t
      · rw [hq] at h0
        simp at h0
      · have hall2 : ∀ j pj pk, nth (q :: rest2) j = some pj →
            nth (q :: rest2) (j + 1) = some pk →
            (ranks (byteSlice piece pj.pos pk.pos)).isSome := by
          intro j pj pk hj hk
          exact hall (j + 1) pj pk hj hk
        rcases ih hall2 with ⟨ts, hts, hf⟩
        refine ⟨t :: ts, ?_, ?_⟩
        · show partsToTokens ranks piece (p :: q :: rest2) = .ok (t :: ts)
          rw [partsToTokens, hq]
          show (do
            let ts2 ← partsToTokens ranks piece (q :: rest2)
            Except.ok (t :: ts2)) = Except.ok (t :: ts)
          rw [hts, bind_ok_elim]
        · show List.Forall₂ _ (byteSlice piece p.pos q.pos :: segsOf piece (q :: rest2))
            (t :: ts)
          exact List.Forall₂.cons hq hf

lemma mono_first_last (piece : List Nat) :
    ∀ (parts : List Part) a b,
      (∀ j pj pk, nth parts j = some pj → nth parts (j + 1) = some pk →
        pj.pos < pk.pos) →
      nth parts 0 = some a → nth parts (parts.length - 1) = some b →
      a.pos ≤ b.pos := by
  intro parts
  induction parts with
  | nil =>
    intro a b _ h0 _
    cases h0
  | cons p rest ih =>
    intro a b hmono h0 hl
    injection h0 with h0
    cases rest with
    | nil =>
      injection hl with hl
      rw [← h0, ← hl]
    | cons q rest2 =>
      have h01 := hmono 0 p q rfl rfl
      have hmono2 : ∀ j pj pk, nth (q :: rest2) j = some pj →
          nth (q :: rest2) (j + 1) = some pk → pj.pos < pk.pos :=
        fun j pj pk hj hk => hmono (j + 1) pj pk hj hk
      have hl2 : nth (q :: rest2) ((q :: rest2).length - 1) = some b := by
        have hi : (p :: q :: rest2).length - 1 = rest2.length + 1 := by simp
        rw [hi] at hl
        have hi2 : (q :: rest2).length - 1 = rest2.length := by simp
        rw [hi2]
        exact hl
      have hqb := ih q b hmono2 rfl hl2
      rw [← h0]
      exact le_trans (Nat.le_of_lt h01) hqb

lemma segsOf_flatten (piece : List Nat) :
    ∀ (parts : List Part) a b,
      (∀ j pj pk, nth parts j = some pj → nth parts (j + 1) = some pk →
        pj.pos < pk.pos) →
      nth parts 0 = some a → nth parts (parts.length - 1) = some b →
      (segsOf piece parts).flatten = byteSlice piece a.pos b.pos := by
  intro parts
  induction parts with
  | nil =>
    intro a b _ h0 _
    cases h0
  | cons p rest ih =>
    intro a b hmono h0 hl
    injection h0 with h0
    cases rest with
    | nil =>
      injection hl with hl
      show ([] : List (List Nat)).flatten = byteSlice piece a.pos b.pos
      rw [← h0, ← hl]
      simp [byteSlice]
    | cons q rest2 =>
      have h01 := hmono 0 p q rfl rfl
      have hmono2 : ∀ j pj pk, nth (q :: rest2) j = some pj →
          nth (q :: rest2) (j + 1) = some pk → pj.pos < pk.pos :=
        fun j pj pk hj hk => hmono (j + 1) pj pk hj hk
      have hl2 : nth (q :: rest2) ((q :: rest2).length - 1) = some b := by
        have hi : (p :: q :: rest2).length - 1 = rest2.length + 1 := by simp
        rw [hi] at hl
        have hi2 : (q :: rest2).length - 1 = rest2.length := by simp
        rw [hi2]
        exact hl
      have hIH := ih q b hmono2 rfl hl2
      have hqb := mono_first_last piece (q :: rest2) q b hmono2 rfl hl2
      show (byteSlice piece p.pos q.pos :: segsOf piece (q :: rest2)).flatten = _
      rw [List.flatten_cons, hIH,
        byteSlice_glue piece p.pos q.pos b.pos (Nat.le_of_lt h01) hqb, ← h0]
lemma mapME_decodeOne (sp : Splitter) (entries : List (List Nat × Nat))
    (specials : List (List Char × Nat))
    (hvals : (entries.map Prod.snd).Nodup) :
    ∀ (segs : List (List Nat)) (ts : List Nat),
      List.Forall₂ (fun sgm t => ranksGet entries sgm = some t) segs ts →
      mapME (decodeOne (mkEncoding sp entries specials)) ts = .ok segs := by
  intro segs ts hf
  induction hf with
  | nil => rfl
  | @cons sgm t segs2 ts2 hrel hf2 ih =>
    rw [mapME]
    have hd : decodeOne (mkEncoding sp entries specials) t = .ok sgm := by
      rw [decodeOne]
      have hg : mapGet (mkEncoding sp entries specials).decoder t = some sgm := by
        show mapGet (entries.foldl (fun acc e => mapSet acc e.2 e.1) []) t = some sgm
        exact decoder_inverse entries hvals sgm t hrel
      rw [hg]
    rw [hd, bind_ok_elim, ih, bind_ok_elim]

lemma decodeBytes_of_forall (sp : Splitter) (entries : List (List Nat × Nat))
    (specials : List (List Char × Nat))
    (hvals : (entries.map Prod.snd).Nodup)
    (segs : List (List Nat)) (ts : List Nat)
    (hf : List.Forall₂ (fun sgm t => ranksGet entries sgm = some t) segs ts) :
    decodeBytes (mkEncoding sp entries specials) ts = .ok segs.flatten := by
  rw [decodeBytes, mapME_decodeOne sp entries specials hvals segs ts hf, bind_ok_elim]

lemma utf8Encode_ne_nil (piece : List Char) (h : piece ≠ []) :
    utf8Encode piece ≠ [] := by
  cases piece with
  | nil => cases h rfl
  | cons c s =>
    rw [utf8Encode_cons]
    intro hcon
    have hl := congrArg List.length hcon
    rw [List.length_append] at hl
    have hp := utf8Nat_length_pos c.toNat
    rw [List.length_nil] at hl
    omega

lemma utf8Encode_bytes_lt (piece : List Char) :
    ∀ b ∈ utf8Encode piece, b < 256 := by
  intro b hb
  rcases List.mem_flatMap.1 hb with ⟨c, hc, hbc⟩
  exact utf8Nat_lt_256 c.toNat (char_lt c) b hbc

/-- One piece of `encodeOrdinary` decodes back to exactly its UTF-8 bytes. -/
lemma piece_roundtrip (sp : Splitter) (entries : List (List Nat × Nat))
    (specials : List (List Char × Nat))
    (hvals : (entries.map Prod.snd).Nodup)
    (h256 : ∀ b, b < 256 → (ranksGet entries [b]).isSome)
    (piece : List Char) (hpne : piece ≠ []) :
    ∃ ts, encodePiece (mkEncoding sp entries specials) piece = .ok ts ∧
      decodeBytes (mkEncoding sp entries specials) ts = .ok (utf8Encode piece) := by
  have hbne : utf8Encode piece ≠ [] := utf8Encode_ne_nil piece hpne
  have hblt : ∀ b ∈ utf8Encode piece, b < 256 := utf8Encode_bytes_lt piece
  rcases hfast : ranksGet entries (utf8Encode piece) with _ | t
  · have hlp : 1 ≤ (utf8Encode piece).length := by
      cases hby : utf8Encode piece
      · cases hbne hby
      · simp
    by_cases h1 : (utf8Encode piece).length = 1
    · exfalso
      rcases List.length_eq_one.1 h1 with ⟨b, hb⟩
      have hsb := h256 b (hblt b (by rw [hb]; simp))
      rw [← hb, hfast] at hsb
      simp at hsb
    · rcases bytePairMerge_ok (ranksGet entries) (utf8Encode piece) with
        ⟨res, its, hmerge, hsum, hres2, hsentres, hminres⟩
      have hmerge2 := hmerge
      rw [bytePairMerge, ← findMin_initParts] at hmerge2
      have hseg : SegInv (ranksGet entries) (utf8Encode piece) res :=
        mergeLoop_SegInv (ranksGet entries) (utf8Encode piece) _ _ _ 0 res its
          (sentInv_initParts (ranksGet entries) (utf8Encode piece))
          (segInv_initParts (ranksGet entries) (utf8Encode piece) hlp)
          (rankInv_initParts (ranksGet entries) (utf8Encode piece) hlp)
          hmerge2
      obtain ⟨⟨p0, hp0, hp0v⟩, ⟨pl, hpl, hplv⟩, hmono, hsegs⟩ := hseg
      have hall : ∀ j pj pk, nth res j = some pj → nth res (j + 1) = some pk →
          ((ranksGet entries) (byteSlice (utf8Encode piece) pj.pos pk.pos)).isSome := by
        intro j pj pk hj hk
        rcases hsegs j pj pk hj hk with hone | hsome
        · rcases List.length_eq_one.1 hone with ⟨x, hx⟩
          rw [hx]
          apply h256
          apply hblt
          apply byteSlice_subset (utf8Encode piece) pj.pos pk.pos
          rw [hx]
          simp
        · exact hsome
      rcases partsToTokens_ok_all (ranksGet entries) (utf8Encode piece) res hall with
        ⟨ts, hts, hf⟩
      refine ⟨ts, ?_, ?_⟩
      · show encodePiece (mkEncoding sp entries specials) piece = .ok ts
        rw [encodePiece]
        have hscr : ranksGet (mkEncoding sp entries specials).mergeableRanks
            (utf8Encode piece) = none := hfast
        rw [hscr]
        show bpeEncode (ranksGet entries) (utf8Encode piece) = .ok ts
        rw [bpeEncode, if_neg h1, hmerge, bind_ok_elim]
        exact hts
      · have hflat := segsOf_flatten (utf8Encode piece) res p0 pl hmono hp0 hpl
        rw [hp0v, hplv, byteSlice_full] at hflat
        have hdec := decodeBytes_of_forall sp entries specials hvals
          (segsOf (utf8Encode piece) res) ts hf
        rw [hflat] at hdec
        exact hdec
  · refine ⟨[t], ?_, ?_⟩
    · rw [encodePiece]
      have hscr : ranksGet (mkEncoding sp entries specials).mergeableRanks
          (utf8Encode piece) = some t := hfast
      rw [hscr]
    · have hf : List.Forall₂ (fun sgm tk => ranksGet entries sgm = some tk)
          [utf8Encode piece] [t] := List.Forall₂.cons hfast List.Forall₂.nil
      have hdec := decodeBytes_of_forall sp entries specials hvals
        [utf8Encode piece] [t] hf
      simpa using hdec

lemma pieces_roundtrip (sp : Splitter) (entries : List (List Nat × Nat))
    (specials : List (List Char × Nat))
    (hvals : (entries.map Prod.snd).Nodup)
    (h256 : ∀ b, b < 256 → (ranksGet entries [b]).isSome) :
    ∀ pieces : List (List Char), (∀ p ∈ pieces, p ≠ []) →
      ∃ tss, mapME (encodePiece (mkEncoding sp entries specials)) pieces = .ok tss ∧
        decodeBytes (mkEncoding sp entries specials) tss.flatten =
          .ok (utf8Encode pieces.flatten) := by
  intro pieces
  induction pieces with
  | nil =>
    intro _
    exact ⟨[], rfl, rfl⟩
  | cons p ps ih =>
    intro hne2
    rcases piece_roundtrip sp entries specials hvals h256 p
      (hne2 p (List.mem_cons_self p ps)) with ⟨ts, hts, hdec⟩
    rcases ih (fun q hq => hne2 q (List.mem_cons_of_mem p hq)) with ⟨tss, htss, hdecs⟩
    refine ⟨ts :: tss, ?_, ?_⟩
    · rw [mapME, hts, bind_ok_elim, htss, bind_ok_elim]
    · show decodeBytes (mkEncoding sp entries specials) (ts ++ tss.flatten) = _
      rw [decodeBytes_append _ _ _ _ _ hdec hdecs]
      rw [show (p :: ps).flatten = p ++ ps.flatten from rfl, utf8Encode_append]

/-- Claim C2: for every string (and every valid vocabulary: distinct ranks
and full single-byte coverage, with the pre-tokenizer partitioning the text
into non-empty pieces), decoding the tokens of `encodeOrdinary` under the
default replace policy returns the original string. -/
theorem c2_round_trip (sp : Splitter) (entries : List (List Nat × Nat))
    (specials : List (List Char × Nat)) (s : List Char)
    (hvals : (entries.map Prod.snd).Nodup)
    (h256 : ∀ b, b < 256 → (ranksGet entries [b]).isSome)
    (hsplit : (sp s).flatten = s)
    (hne : ∀ p ∈ sp s, p ≠ []) :
    ∃ ts, encodeOrdinary (mkEncoding sp entries specials) s = .ok ts ∧
      decode (mkEncoding sp entries specials) ts .replace = .ok s := by
  by_cases hs : s = []
  · subst hs
    exact ⟨[], by rw [encodeOrdinary, if_pos rfl], rfl⟩
  · have hpieces : sp s ≠ [] := by
      intro hcon
      rw [hcon] at hsplit
      exact hs hsplit.symm
    rcases pieces_roundtrip sp entries specials hvals h256 (sp s) hne with
      ⟨tss, htss, hdec⟩
    refine ⟨tss.flatten, ?_, ?_⟩
    · rw [encodeOrdinary, if_neg hs]
      show (if sp s = [] then Except.ok [] else do
        let ts2 ← mapME (encodePiece (mkEncoding sp entries specials)) (sp s)
        Except.ok ts2.flatten) = Except.ok tss.flatten
      rw [if_neg hpieces, htss, bind_ok_elim]
    · rw [hsplit] at hdec
      rw [decode, hdec, bind_ok_elim]
      show Except.ok (utf8Repl (utf8Encode s)) = Except.ok s
      rw [utf8Repl_enc]
def wSp : Splitter := fun t => [t]

def wEntries : List (List Nat × Nat) := (List.range 256).map (fun b => ([b], b))

set_option maxRecDepth 10000 in
theorem c2_round_trip_wit :
    ((wEntries.map Prod.snd).Nodup) ∧
    (∀ b, b < 256 → (ranksGet wEntries [b]).isSome) ∧
    ((wSp [Char.ofNat 97, Char.ofNat 98]).flatten = [Char.ofNat 97, Char.ofNat 98]) ∧
    (∀ p ∈ wSp [Char.ofNat 97, Char.ofNat 98], p ≠ []) ∧
    (∃ ts, encodeOrdinary (mkEncoding wSp wEntries [])
        [Char.ofNat 97, Char.ofNat 98] = .ok ts ∧
      decode (mkEncoding wSp wEntries []) ts .replace =
        .ok [Char.ofNat 97, Char.ofNat 98]) :=
  ⟨by decide, by decide, by decide, by decide,
   c2_round_trip wSp wEntries [] [Char.ofNat 97, Char.ofNat 98]
     (by decide) (by decide) (by decide) (by decide)⟩

lemma encodeSweep_single (enc : Encoding) (A : SpecOpt)
    (pre tok suf : List Char) (id : Nat) (a b : List Nat)
    (hallow : A = SpecOpt.all ∨ optHas A tok = true)
    (hid : mapGet enc.specialTokens tok = some id)
    (ha : encodeOrdinary enc pre = .ok a)
    (hb : encodeOrdinary enc suf = .ok b) :
    (do
      let r ← encodeSweep enc (pre ++ tok ++ suf) A [(pre.length, tok)] 0
      let tail ← if r.2 < (pre ++ tok ++ suf).length then
          encodeOrdinary enc ((pre ++ tok ++ suf).drop r.2)
        else Except.ok []
      Except.ok (r.1 ++ tail)) = .ok (a ++ id :: b) := by
  have hnil : encodeOrdinary enc [] = Except.ok [] := rfl
  have hsweep : encodeSweep enc (pre ++ tok ++ suf) A [(pre.length, tok)] 0 =
      .ok (a ++ [id], pre.length + tok.length) := by
    rw [encodeSweep, if_pos hallow]
    by_cases hp : pre = []
    · subst hp
      rw [hnil] at ha
      cases ha
      rw [if_neg (show ¬ ((0 : Nat) < ([] : List Char).length) by simp)]
      simp only [bind_ok_elim]
      rw [encodeSweep]
      simp only [bind_ok_elim, hid]
      rfl
    · rw [if_pos (show (0 : Nat) < pre.length from List.length_pos.2 hp)]
      have hcs : charSlice (pre ++ tok ++ suf) 0 pre.length = pre := by
        rw [charSlice, List.drop_zero, Nat.sub_zero, List.append_assoc,
          List.take_left]
      rw [hcs, ha]
      simp only [bind_ok_elim]
      rw [encodeSweep]
      simp only [bind_ok_elim, hid]
      rfl
  rw [hsweep]
  simp only [bind_ok_elim]
  by_cases hs : suf = []
  · subst hs
    rw [hnil] at hb
    cases hb
    rw [if_neg (show ¬ ((a ++ [id], pre.length + tok.length).2 <
        (pre ++ tok ++ ([] : List Char)).length) by
      simp [List.length_append])]
    simp
  · have hdrop : (pre ++ tok ++ suf).drop (pre.length + tok.length) = suf := by
      have hlen : pre.length + tok.length = (pre ++ tok).length := by
        rw [List.length_append]
      rw [hlen, List.drop_left]
    rw [if_pos (show ((a ++ [id], pre.length + tok.length).2 <
        (pre ++ tok ++ suf).length) by
      have h1 := List.length_pos.2 hs
      simp [List.length_append]
      omega)]
    show (do
      let tail ← encodeOrdinary enc
        ((pre ++ tok ++ suf).drop (pre.length + tok.length))
      Except.ok ((a ++ [id]) ++ tail)) = .ok (a ++ id :: b)
    rw [hdrop, hb]
    simp only [bind_ok_elim]
    simp

/-- Claim C3: whenever a member of the effective disallowed set (with the
documented defaults: `disallowedSpecial` defaults to 'all', meaning every
registered special token outside `allowedSpecial`) occurs as a substring of
a non-empty text, `encode` raises the disallowed-special error naming an
offending token; and with the special token allowed, the call succeeds and
emits exactly the token's reserved id at its occurrence, the surrounding
text encoded ordinarily and concatenated in order. -/
theorem c3_disallowed_special (enc : Encoding) (text : List Char)
    (allowedArg disallowedArg : Option SpecOpt) :
    ((∃ t ∈ effectiveDisallowed (enc.specialTokens.map Prod.fst)
          (allowedArg.getD (SpecOpt.set [])) (disallowedArg.getD SpecOpt.all),
        containsSeq t text = true) → text ≠ [] →
      ∃ t2, t2 ∈ effectiveDisallowed (enc.specialTokens.map Prod.fst)
            (allowedArg.getD (SpecOpt.set [])) (disallowedArg.getD SpecOpt.all) ∧
        containsSeq t2 text = true ∧
        encode enc text allowedArg disallowedArg =
          .error (.disallowedSpecial t2)) ∧
    (∀ pre tok suf id a b,
      text = pre ++ tok ++ suf → tok ≠ [] →
      scanSpecial (enc.specialTokens.map Prod.fst) text = [(pre.length, tok)] →
      (allowedArg.getD (SpecOpt.set []) = SpecOpt.all ∨
        optHas (allowedArg.getD (SpecOpt.set [])) tok = true) →
      mapGet enc.specialTokens tok = some id →
      (effectiveDisallowed (enc.specialTokens.map Prod.fst)
          (allowedArg.getD (SpecOpt.set [])) (disallowedArg.getD SpecOpt.all)).find?
        (fun t => containsSeq t text) = none →
      encodeOrdinary enc pre = .ok a →
      encodeOrdinary enc suf = .ok b →
      encode enc text allowedArg disallowedArg = .ok (a ++ id :: b)) := by
  constructor
  · intro hex htext
    have hsome : ((effectiveDisallowed (enc.specialTokens.map Prod.fst)
        (allowedArg.getD (SpecOpt.set [])) (disallowedArg.getD SpecOpt.all)).find?
        (fun t => containsSeq t text)).isSome := by
      rw [List.find?_isSome]
      exact hex
    rcases hopt : (effectiveDisallowed (enc.specialTokens.map Prod.fst)
        (allowedArg.getD (SpecOpt.set [])) (disallowedArg.getD SpecOpt.all)).find?
        (fun t => containsSeq t text) with _ | t2
    · rw [hopt] at hsome
      simp at hsome
    · refine ⟨t2, List.mem_of_find?_eq_some hopt, ?_, ?_⟩
      · simpa using List.find?_some hopt
      · rw [encode, if_neg htext, hopt]
  · intro pre tok suf id a b hteq htokne hscan hallow hid hnone ha hb
    subst hteq
    have htext : (pre ++ tok ++ suf : List Char) ≠ [] := by
      intro hcon
      rcases List.append_eq_nil.1 hcon with ⟨h1, h2⟩
      rcases List.append_eq_nil.1 h1 with ⟨h3, h4⟩
      exact htokne h4
    have hAne : allowedArg.getD (SpecOpt.set []) ≠ SpecOpt.set [] := by
      intro hcon
      rcases hallow with h | h
      · rw [hcon] at h
        exact SpecOpt.noConfusion h
      · rw [hcon] at h
        simp [optHas] at h
    have hspne : enc.specialTokens ≠ [] := by
      intro hcon
      rw [hcon] at hid
      simp [mapGet] at hid
    rw [encode, if_neg htext, hnone, if_neg hAne, if_neg hspne, hscan]
    exact encodeSweep_single enc (allowedArg.getD (SpecOpt.set []))
      pre tok suf id a b hallow hid ha hb

def wSpecials : List (List Char × Nat) := [([Char.ofNat 36], 500)]

def encW : Encoding := mkEncoding wSp wEntries wSpecials

set_option maxRecDepth 10000 in
theorem c3_disallowed_special_wit :
    (∃ t2, t2 ∈ effectiveDisallowed (encW.specialTokens.map Prod.fst)
          ((none : Option SpecOpt).getD (SpecOpt.set []))
          ((none : Option SpecOpt).getD SpecOpt.all) ∧
      containsSeq t2 [Char.ofNat 97, Char.ofNat 36] = true ∧
      encode encW [Char.ofNat 97, Char.ofNat 36] none none =
        .error (.disallowedSpecial t2)) ∧
    encode encW [Char.ofNat 97, Char.ofNat 36, Char.ofNat 98]
        (some (SpecOpt.set [[Char.ofNat 36]])) none = .ok [97, 500, 98] :=
  ⟨(c3_disallowed_special encW [Char.ofNat 97, Char.ofNat 36] none none).1
      ⟨[Char.ofNat 36], by decide, by decide⟩ (by decide),
   (c3_disallowed_special encW [Char.ofNat 97, Char.ofNat 36, Char.ofNat 98]
      (some (SpecOpt.set [[Char.ofNat 36]])) none).2
      [Char.ofNat 97] [Char.ofNat 36] [Char.ofNat 98] 500 [97] [98]
      (by decide) (by decide) (by decide) (Or.inr (by decide))
      (by rfl) (by decide) (by rfl) (by rfl)⟩

/-- Claim C4 (code bug): under the 'ignore' policy the TextDecoder is
constructed with `fatal: false`, so malformed byte sequences are replaced
with U+FFFD exactly as under 'replace' — they are not dropped.  A token
decoding to the lone invalid byte 0xFF yields the replacement character,
not the empty string the spec's drop semantics requires. -/
theorem c4_ignore_replaces :
    decode (mkEncoding wSp [([255], 0)] []) [0] ErrPolicy.ignore =
      .ok [Char.ofNat 65533] ∧
    decode (mkEncoding wSp [([255], 0)] []) [0] ErrPolicy.ignore ≠
      .ok [] := by
  have h1 : decode (mkEncoding wSp [([255], 0)] []) [0] ErrPolicy.ignore =
      .ok [Char.ofNat 65533] := rfl
  refine ⟨h1, ?_⟩
  rw [h1]
  intro h
  simp at h

/-- Claim C5 (amended): when all ranks of the rank table are distinct, the
id→bytes decode table built by the constructor is exactly the inverse
mapping of the rank table. -/
theorem c5_decoder_inverse (sp : Splitter) (entries : List (List Nat × Nat))
    (specials : List (List Char × Nat))
    (hvals : (entries.map Prod.snd).Nodup) (bs : List Nat) (t : Nat) :
    mapGet (mkEncoding sp entries specials).decoder t = some bs ↔
      (bs, t) ∈ entries := by
  show mapGet (entries.foldl (fun acc e => mapSet acc e.2 e.1) []) t = some bs ↔ _
  rw [foldl_mapSet_swap entries [] hvals (fun e _ => rfl), List.nil_append]
  constructor
  · intro h
    have hm := mapGet_mem _ _ _ h
    rcases List.mem_map.1 hm with ⟨e, he, heq⟩
    rcases e with ⟨b2, t2⟩
    cases heq
    exact he
  · intro h
    apply mapGet_of_mem_nodup
    · have hmk : ((entries.map fun e => (e.2, e.1)).map Prod.fst) =
          entries.map Prod.snd := by
        simp
      rw [hmk]
      exact hvals
    · exact List.mem_map.2 ⟨(bs, t), h, rfl⟩

theorem c5_decoder_inverse_wit :
    (([(([7] : List Nat), 1)].map Prod.snd).Nodup) ∧
    mapGet (mkEncoding wSp [([7], 1)] []).decoder 1 = some [7] :=
  ⟨by decide,
   (c5_decoder_inverse wSp [([7], 1)] [] (by decide) [7] 1).mpr (by decide)⟩

/-- Claim C5, counterexample to the original wording: the constructor never
raises a DuplicateRankError.  Feeding it two distinct byte sequences with
the same rank succeeds, and `Map.set` silently lets the later entry
overwrite the earlier one in the decode table. -/
theorem c5_dup_rank_cex :
    (([0] : List Nat) ≠ [1]) ∧
    mapGet (mkEncoding wSp [([0], 0), ([1], 0)] []).decoder 0 = some [1] := by
  refine ⟨by simp, ?_⟩
  rfl

/-- Claim C6: `encodeSingleToken` is the exact whole-unit lookup: for a
string the special-token table wins over the rank table; success returns
exactly the table id, and the unknown-token error occurs if and only if no
exact match exists in the tables the call consults (both for a string, the
rank table for raw bytes, which the special-token check — a string-keyed
lookup — does not apply to).  No BPE merging is involved: the only success
mode is an exact table hit. -/
theorem c6_single_token (enc : Encoding) :
    (∀ s id, mapGet enc.specialTokens s = some id →
      encodeSingleToken enc (.str s) = .ok id) ∧
    (∀ s t, mapGet enc.specialTokens s = none →
      (encodeSingleToken enc (.str s) = .ok t ↔
        ranksGet enc.mergeableRanks (utf8Encode s) = some t)) ∧
    (∀ s, encodeSingleToken enc (.str s) = .error (.unknownToken s) ↔
      (mapGet enc.specialTokens s = none ∧
        ranksGet enc.mergeableRanks (utf8Encode s) = none)) ∧
    (∀ b t, encodeSingleToken enc (.bytes b) = .ok t ↔
      ranksGet enc.mergeableRanks b = some t) ∧
    (∀ b, encodeSingleToken enc (.bytes b) =
        .error (.unknownToken (utf8Repl b)) ↔
      ranksGet enc.mergeableRanks b = none) := by
  refine ⟨?_, ?_, ?_, ?_, ?_⟩
  · intro s id h
    rw [encodeSingleToken, h]
  · intro s t h
    rw [encodeSingleToken, h]
    rcases hr : ranksGet enc.mergeableRanks (utf8Encode s) with _ | t2
    · constructor
      · intro h2
        cases h2
      · intro h2
        cases h2
    · constructor
      · intro h2
        cases h2
        rfl
      · intro h2
        cases h2
        rfl
  · intro s
    rcases hs : mapGet enc.specialTokens s with _ | id
    · rw [encodeSingleToken, hs]
      rcases hr : ranksGet enc.mergeableRanks (utf8Encode s) with _ | t2
      · simp
      · constructor
        · intro h2
          cases h2
        · intro h2
          cases h2.2
    · rw [encodeSingleToken, hs]
      constructor
      · intro h2
        cases h2
      · intro h2
        cases h2.1
  · intro b t
    rw [encodeSingleToken]
    rcases hr : ranksGet enc.mergeableRanks b with _ | t2
    · constructor
      · intro h2
        cases h2
      · intro h2
        cases h2
    · constructor
      · intro h2
        cases h2
        rfl
      · intro h2
        cases h2
        rfl
  · intro b
    rw [encodeSingleToken]
    rcases hr : ranksGet enc.mergeableRanks b with _ | t2
    · simp
    · constructor
      · intro h2
        cases h2
      · intro h2
        cases h2

set_option maxRecDepth 10000 in
theorem c6_single_token_wit :
    encodeSingleToken encW (.str [Char.ofNat 36]) = .ok 500 ∧
    encodeSingleToken encW (.bytes [36, 36]) =
      .error (.unknownToken (utf8Repl [36, 36])) :=
  ⟨(c6_single_token encW).1 [Char.ofNat 36] 500 (by rfl),
   ((c6_single_token encW).2.2.2.2 [36, 36]).mpr (by decide)⟩

end Tok
